import Mathlib

/-!
Verification of the kensho repository's validation and preprocessing core.

Go strings are byte slices, so we embed them as `List Nat` (each entry a
byte value `< 256`).  Multi-byte UTF-8 characters such as 年, 月, 日 and the
era names are written out as their UTF-8 byte sequences.  Go's `len`,
indexing, `strings.ReplaceAll`, `strings.Contains` and the regexp search
all operate on bytes, so this embedding is exact.
-/

namespace Kensho

/-- Go strings are byte slices; we model them as lists of byte values. -/
abbrev Bytes := List Nat

/-- UTF-8 encoding of a single Unicode code point (used only to build
concrete test inputs from Lean string literals). -/
def charUtf8 (c : Nat) : List Nat :=
  if c < 0x80 then [c]
  else if c < 0x800 then [0xC0 + c / 64, 0x80 + c % 64]
  else if c < 0x10000 then [0xE0 + c / 4096, 0x80 + c / 64 % 64, 0x80 + c % 64]
  else [0xF0 + c / 262144, 0x80 + c / 4096 % 64, 0x80 + c / 64 % 64, 0x80 + c % 64]

/-- UTF-8 bytes of a Lean string literal, used to write concrete Go strings. -/
def utf8 (s : String) : Bytes :=
  (s.toList.map (fun c => charUtf8 c.toNat)).flatten

/-- ASCII digit test on a byte (Go `'0' <= c && c <= '9'`, also what the
regexp class `\d` matches). -/
def isDigitB (b : Nat) : Bool := 0x30 ≤ b && b ≤ 0x39

/-- Numeric value of an ASCII digit byte (Go `ch - '0'`). -/
def digitVal (b : Nat) : Nat := b - 0x30

/-- Value of a string of ASCII digit bytes read as a decimal numeral. -/
def digitsVal (s : Bytes) : Nat := s.foldl (fun a b => 10 * a + digitVal b) 0

/-- Recursion core of `replaceAll`; `fuel` is an upper bound on the length
of `s` (each step consumes at least one byte, so `s.length` steps always
suffice and the `0` case is unreachable from `replaceAll`). -/
def replaceAllAux (old new : Bytes) : Nat → Bytes → Bytes
  | _, [] => []
  | 0, s => s
  | fuel + 1, a :: t =>
    if old ≠ [] ∧ old.isPrefixOf (a :: t) then
      new ++ replaceAllAux old new fuel (List.drop old.length (a :: t))
    else
      a :: replaceAllAux old new fuel t

/-- `strings.Replace(s, old, new, -1)` = `strings.ReplaceAll`: replace all
non-overlapping occurrences of `old`, scanning left to right.  (Go's
behaviour for empty `old` — inserting `new` between characters — is not
modelled; every call in the repository uses a non-empty pattern.) -/
def replaceAll (s old new : Bytes) : Bytes := replaceAllAux old new s.length s

/-- `strings.Replace(s, old, new, 1)`: replace only the first occurrence. -/
def replaceFirst (s old new : Bytes) : Bytes :=
  match s with
  | [] => []
  | a :: t =>
    if old ≠ [] ∧ old.isPrefixOf (a :: t) then
      new ++ List.drop old.length (a :: t)
    else
      a :: replaceFirst t old new

/-- `strings.Contains(s, pat)` (byte-level substring test). -/
def containsSub (s pat : Bytes) : Bool :=
  match s with
  | [] => pat.isEmpty
  | a :: t => pat.isPrefixOf (a :: t) || containsSub t pat

/-- `strconv.Atoi` for a 64-bit `int`: optional single `+`/`-` sign followed
by at least one ASCII digit; out-of-range values are an error (`none`). -/
def goAtoi (s : Bytes) : Option Int :=
  match s with
  | [] => none
  | b :: rest =>
    let body := if b = 0x2B ∨ b = 0x2D then rest else b :: rest
    if body ≠ [] ∧ body.all isDigitB then
      let v : Nat := digitsVal body
      if b = 0x2D then
        if v ≤ 2 ^ 63 then some (-(v : Int)) else none
      else
        if v < 2 ^ 63 then some (v : Int) else none
    else none

/-! ## ChecksumValidator (src/kensho/validation/validation.go) -/

/-- UTF-8 bytes of 第. -/
def daiB : Bytes := [0xE7, 0xAC, 0xAC]
/-- UTF-8 bytes of 号. -/
def gouB : Bytes := [0xE5, 0x8F, 0xB7]

/-- The separator stripping at the top of `ValidateDriverLicenseNumber`:
spaces, then 第, then 号 are removed. -/
def stripDL (s : Bytes) : Bytes :=
  replaceAll (replaceAll (replaceAll s [0x20] []) daiB []) gouB []

/-- The fixed (placeholder) weight table of `ValidateDriverLicenseNumber`. -/
def dlWeights : List Nat := [5, 4, 3, 2, 7, 6, 5, 4, 3, 2, 1]

/-- The weighted-sum loop of `ValidateDriverLicenseNumber`: Σ digit·weight
over bytes paired with weights (the loop runs for i = 0..10 and both lists
have length 11 at the call site). -/
def weightedSum : Bytes → List Nat → Nat
  | b :: bs, w :: ws => digitVal b * w + weightedSum bs ws
  | _, _ => 0

/-- `ValidateDriverLicenseNumber` (validation.go lines 12-44): strip
spaces/第/号, require byte length 12, require the first 11 bytes and the
12th byte to be ASCII digits (each `strconv.Atoi(string(number[i]))`
failure returns false), and compare the 12th digit against
`(11 - sum%11) % 10`. -/
def ValidateDriverLicenseNumber (number : Bytes) : Bool :=
  let n := stripDL number
  if n.length ≠ 12 then false
  else if (n.take 11).all isDigitB then
    let sum := weightedSum (n.take 11) dlWeights
    let last := n.getD 11 0
    if isDigitB last then decide ((11 - sum % 11) % 10 = digitVal last)
    else false
  else false

/-- The My Number weights: `i+2` for `i < 6`, else `i-4`
(i counted from the rightmost payload digit). -/
def mnWeight (i : Nat) : Int := if i < 6 then (i : Int) + 2 else (i : Int) - 4

/-- The digit-extraction loop of `ValidateMyNumber`: for `fuel` iterations,
take `n % 10` (Go `%` = truncated `tmod`), multiply by the weight at index
`i`, and continue with `n / 10` (Go `/` = truncated `tdiv`). -/
def mnSumAux (n : Int) (i : Nat) : Nat → Int
  | 0 => 0
  | fuel + 1 => Int.tmod n 10 * mnWeight i + mnSumAux (Int.tdiv n 10) (i + 1) fuel

/-- The hyphen stripping at the top of `ValidateMyNumber`. -/
def stripMN (s : Bytes) : Bytes := replaceAll s [0x2D] []

/-- `ValidateMyNumber` (validation.go lines 47-84): strip hyphens, require
byte length 12, parse the first 11 bytes with `strconv.Atoi`, extract
digits from the value right-to-left with weights `i+2` / `i-4`, and compare
the check digit (`0` when `sum % 11 ≤ 1`, else `11 - sum % 11`) with the
12th byte. -/
def ValidateMyNumber (number : Bytes) : Bool :=
  let s := stripMN number
  if s.length ≠ 12 then false
  else
    match goAtoi (s.take 11) with
    | none => false
    | some n =>
      let sum := mnSumAux n 0 11
      let remainder := Int.tmod sum 11
      let checkDigit : Int := if remainder > 1 then 11 - remainder else 0
      let last := s.getD 11 0
      if isDigitB last then decide (checkDigit = (digitVal last : Int))
      else false

/-! ## EraCalendar / date validation (src/kensho/validation/validation.go) -/

/-- UTF-8 continuation byte test. -/
def contB (b : Nat) : Bool := 0x80 ≤ b && b ≤ 0xBF

/-- `utf8.DecodeRune`: decode the first rune of a byte string, returning the
code point and its byte length; `none` stands for Go's `RuneError` result
(invalid encoding, which `unicode.IsSpace` never accepts) or empty input. -/
def decodeRune (s : Bytes) : Option (Nat × Nat) :=
  match s with
  | [] => none
  | b0 :: rest =>
    if b0 < 0x80 then some (b0, 1)
    else if 0xC2 ≤ b0 ∧ b0 ≤ 0xDF then
      match rest with
      | b1 :: _ => if contB b1 then some ((b0 - 0xC0) * 64 + (b1 - 0x80), 2) else none
      | [] => none
    else if 0xE0 ≤ b0 ∧ b0 ≤ 0xEF then
      match rest with
      | b1 :: b2 :: _ =>
        let lo := if b0 = 0xE0 then 0xA0 else 0x80
        let hi := if b0 = 0xED then 0x9F else 0xBF
        if (lo ≤ b1 ∧ b1 ≤ hi) ∧ contB b2 then
          some ((b0 - 0xE0) * 4096 + (b1 - 0x80) * 64 + (b2 - 0x80), 3)
        else none
      | _ => none
    else if 0xF0 ≤ b0 ∧ b0 ≤ 0xF4 then
      match rest with
      | b1 :: b2 :: b3 :: _ =>
        let lo := if b0 = 0xF0 then 0x90 else 0x80
        let hi := if b0 = 0xF4 then 0x8F else 0xBF
        if (lo ≤ b1 ∧ b1 ≤ hi) ∧ contB b2 ∧ contB b3 then
          some ((b0 - 0xF0) * 262144 + (b1 - 0x80) * 4096 + (b2 - 0x80) * 64 + (b3 - 0x80), 4)
        else none
      | _ => none
    else none

/-- `unicode.IsSpace` on a code point (the Unicode `White_Space` property,
as tabulated in Go's `unicode.White_Space` range table). -/
def isSpaceRune (r : Nat) : Bool :=
  r = 0x9 || r = 0xA || r = 0xB || r = 0xC || r = 0xD || r = 0x20 ||
  r = 0x85 || r = 0xA0 || r = 0x1680 || (0x2000 ≤ r && r ≤ 0x200A) ||
  r = 0x2028 || r = 0x2029 || r = 0x202F || r = 0x205F || r = 0x3000

/-- `utf8.RuneStart`: a byte that can begin a rune (not a continuation). -/
def runeStart (b : Nat) : Bool := !(0x80 ≤ b && b ≤ 0xBF)

/-- `utf8.DecodeLastRune`: decode the final rune; `none` stands for
`RuneError` (which stops right-trimming) or empty input.  Go scans back at
most 4 bytes for a start byte and requires the decode to consume exactly
the scanned suffix. -/
def decodeLastRune (s : Bytes) : Option (Nat × Nat) :=
  match s.reverse with
  | [] => none
  | b0 :: restRev =>
    if b0 < 0x80 then some (b0, 1)
    else
      let k? : Option Nat :=
        if runeStart b0 then some 1
        else match restRev with
        | b1 :: restRev2 =>
          if runeStart b1 then some 2
          else match restRev2 with
          | b2 :: restRev3 =>
            if runeStart b2 then some 3
            else match restRev3 with
            | b3 :: _ => if runeStart b3 then some 4 else none
            | [] => none
          | [] => none
        | [] => none
      match k? with
      | none => none
      | some k =>
        match decodeRune (((b0 :: restRev).take k).reverse) with
        | some (r, n) => if n = k then some (r, k) else none
        | none => none

/-- Left half of `strings.TrimSpace`: drop leading space runes.  `fuel`
bounds the number of steps; each step drops at least one byte, so
`s.length` suffices. -/
def trimLeftAux : Nat → Bytes → Bytes
  | 0, s => s
  | fuel + 1, s =>
    match decodeRune s with
    | some (r, n) => if isSpaceRune r then trimLeftAux fuel (s.drop n) else s
    | none => s

/-- Right half of `strings.TrimSpace`: drop trailing space runes. -/
def trimRightAux : Nat → Bytes → Bytes
  | 0, s => s
  | fuel + 1, s =>
    match decodeLastRune s with
    | some (r, k) => if isSpaceRune r then trimRightAux fuel (s.take (s.length - k)) else s
    | none => s

/-- `strings.TrimSpace`: trim leading and trailing Unicode space runes. -/
def trimSpace (s : Bytes) : Bytes :=
  trimRightAux s.length (trimLeftAux s.length s)

/-- UTF-8 bytes of 年. -/
def nenB : Bytes := [0xE5, 0xB9, 0xB4]
/-- UTF-8 bytes of 月. -/
def tsukiB : Bytes := [0xE6, 0x9C, 0x88]
/-- UTF-8 bytes of 日. -/
def nichiB : Bytes := [0xE6, 0x97, 0xA5]
/-- UTF-8 bytes of 元. -/
def ganB : Bytes := [0xE5, 0x85, 0x83]

/-- The era table `eraStartYears`: {令和→2019, 平成→1989, 昭和→1926,
大正→1912, 明治→1868}, era names as their UTF-8 bytes.  Go iterates the
map in random order when building the regexp alternation, but the five
names are distinct 6-byte strings, so at any input position at most one of
them can match and the order is immaterial; we fix the source's textual
order. -/
def eraList : List (Bytes × Nat) :=
  [([0xE4, 0xBB, 0xA4, 0xE5, 0x92, 0x8C], 2019),  -- 令和
   ([0xE5, 0xB9, 0xB3, 0xE6, 0x88, 0x90], 1989),  -- 平成
   ([0xE6, 0x98, 0xAD, 0xE5, 0x92, 0x8C], 1926),  -- 昭和
   ([0xE5, 0xA4, 0xA7, 0xE6, 0xAD, 0xA3], 1912),  -- 大正
   ([0xE6, 0x98, 0x8E, 0xE6, 0xB2, 0xBB], 1868)]  -- 明治

/-- `eraStartYears[era]` lookup. -/
def lookupEra (e : Bytes) : Option Nat :=
  (eraList.find? (fun p => p.1 = e)).map (·.2)

/-- The four submatch groups of `warekiRegex`
`(era)(\d+|元)年(\d+)月(\d+)日`. -/
structure WMatch where
  era : Bytes
  yearTok : Bytes
  monthTok : Bytes
  dayTok : Bytes
  deriving DecidableEq

/-- Match `warekiRegex` anchored at the start of `s`.  `\d+` is maximal
munch (a digit run must be followed by the non-digit marker, so greedy
matching coincides with the backtracking semantics of Go's leftmost-first
search), and the alternation `(\d+|元)` prefers digits, which is immaterial
since the two branches start with disjoint bytes. -/
def matchWarekiAt (s : Bytes) : Option WMatch :=
  match eraList.find? (fun p => p.1.isPrefixOf s) with
  | none => none
  | some p =>
    let r0 := s.drop p.1.length
    let yd := r0.takeWhile isDigitB
    let (ys, r1) :=
      if yd ≠ [] then (yd, r0.dropWhile isDigitB)
      else if ganB.isPrefixOf r0 then (ganB, r0.drop ganB.length)
      else ([], r0)
    if ys = [] then none
    else if nenB.isPrefixOf r1 then
      let r2 := r1.drop nenB.length
      let ms := r2.takeWhile isDigitB
      if ms = [] then none
      else
        let r3 := r2.dropWhile isDigitB
        if tsukiB.isPrefixOf r3 then
          let r4 := r3.drop tsukiB.length
          let ds := r4.takeWhile isDigitB
          if ds = [] then none
          else
            let r5 := r4.dropWhile isDigitB
            if nichiB.isPrefixOf r5 then some ⟨p.1, ys, ms, ds⟩ else none
        else none
    else none

/-- `warekiRegex.FindStringSubmatch`: leftmost match of the era-date
pattern.  Go's regexp tries successive rune positions; since the era names
begin with UTF-8 lead bytes (which can never occur as continuation bytes),
trying every byte position is equivalent. -/
def findWareki : Bytes → Option WMatch
  | [] => none
  | a :: t =>
    match matchWarekiAt (a :: t) with
    | some m => some m
    | none => findWareki t

/-- Go `isLeap` (proleptic Gregorian rule used by `time`). -/
def isLeap (y : Int) : Bool := y % 4 = 0 && (y % 100 ≠ 0 || y % 400 = 0)

/-- Go `daysIn(m, year)`: days in month `m` of year `y`. -/
def daysIn (m y : Int) : Int :=
  if m = 2 ∧ isLeap y then 29
  else [(31 : Int), 28, 31, 30, 31, 30, 31, 31, 30, 31, 30, 31].getD (m - 1).toNat 0

/-- The month/day range validation done by `time.Parse` after the layout
match: month ∈ [1,12] and day ∈ [1, daysIn(month, year)]. -/
def dateInRange (y m d : Int) : Bool :=
  1 ≤ m && m ≤ 12 && 1 ≤ d && d ≤ daysIn m y

/-- `time.Parse("2006-01-02", fmt.Sprintf("%d-%02d-%02d", y, m, d))`
succeeding: the year must print as exactly 4 digits, month and day as
exactly 2 (the fixed-width layout fields accept nothing else), and the
month/day ranges must be valid.  (`y`, `m`, `d` are non-negative here; a
Go `int64` overflow of `startYear + year - 1` would print a negative or
over-wide year and fail the parse exactly like the `y > 9999` case.) -/
def timeParseISO (y m d : Int) : Bool :=
  1000 ≤ y && y ≤ 9999 && m ≤ 99 && d ≤ 99 && dateInRange y m d

/-- `warekiToTime` (validation.go lines 105-150): trim, rewrite the first
元年 to 1年, find the leftmost regexp match, `Atoi` the three numeral
groups (the 元 branch makes `Atoi` fail), look up the era start year, and
let `time.Parse` validate `start + year - 1`, month, day.  Returns the
parsed (gregorianYear, month, day) in place of Go's `time.Time`. -/
def warekiToTime (w : Bytes) : Option (Int × Int × Int) :=
  let s0 := trimSpace w
  let s := replaceFirst s0 (ganB ++ nenB) (0x31 :: nenB)
  match findWareki s with
  | none => none
  | some m =>
    match goAtoi m.yearTok, goAtoi m.monthTok, goAtoi m.dayTok, lookupEra m.era with
    | some y, some mo, some d, some start =>
      let gy := (start : Int) + y - 1
      if timeParseISO gy mo d then some (gy, mo, d) else none
    | _, _, _, _ => none

/-- `time.Parse` with layout `"2006-01-02"` (`fixedMD = true`) or
`"2006-1-2"` (`fixedMD = false`) applied to an arbitrary string: exactly 4
year digits, a `-`, then a month numeral (exactly 2 digits when fixed,
1 or 2 otherwise — `getnum` is greedy and never backtracks), a `-`, a day
numeral, end of input, then the month/day range validation. -/
def parseGoLayout (fixedMD : Bool) (s : Bytes) : Bool :=
  let y := s.take 4
  if y.length = 4 ∧ y.all isDigitB then
    match s.drop 4 with
    | 0x2D :: r1 =>
      let ms := r1.takeWhile isDigitB
      let mok := if fixedMD then ms.length = 2 else 1 ≤ ms.length ∧ ms.length ≤ 2
      if mok then
        match r1.dropWhile isDigitB with
        | 0x2D :: r3 =>
          let ds := r3.takeWhile isDigitB
          let dok := if fixedMD then ds.length = 2 else 1 ≤ ds.length ∧ ds.length ≤ 2
          if dok ∧ r3.dropWhile isDigitB = [] then
            dateInRange (digitsVal y : Int) (digitsVal ms : Int) (digitsVal ds : Int)
          else false
        | _ => false
      else false
    | _ => false
  else false

/-- `ValidateDate` (validation.go lines 154-177): trim, try the era parse;
on failure replace 年→`-`, 月→`-`, delete 日, and try the layouts
`"2006-1-2"` then `"2006-01-02"`. -/
def ValidateDate (w : Bytes) : Bool :=
  let s := trimSpace w
  if (warekiToTime s).isSome then true
  else
    let u := replaceAll (replaceAll (replaceAll s nenB [0x2D]) tsukiB [0x2D]) nichiB []
    parseGoLayout false u || parseGoLayout true u

/-! ## Image preprocessing (src/kensho/preprocessing.go)

Pixel arithmetic in `calculateProjectionScore` is Go `float64`; we idealize
it as exact rational arithmetic (`ℚ`).  The geometry and codec primitives
(bild's rotate/sobel/grayscale/…, `image/jpeg`, `image/png`, webp) are
external libraries, modelled as opaque function parameters. -/

/-- A decoded Go `image.Image` as accessed by `calculateProjectionScore`:
bounds size plus the `R` channel of `At(x, y).RGBA()` (the source reads
only the red channel of the grayscale Sobel image).  Coordinates are
normalized to `0 ≤ x < width`, `0 ≤ y < height` (the source adds
`bounds.Min` back before calling `At`). -/
structure GoImage where
  width : Nat
  height : Nat
  pix : Nat → Nat → ℚ

/-- The external image-processing primitives used by preprocessing.go. -/
structure Geometry where
  grayscale : GoImage → GoImage
  sobel : GoImage → GoImage
  rotate : GoImage → ℚ → GoImage
  contrast : GoImage → ℚ → GoImage
  unsharpMask : GoImage → ℚ → ℚ → GoImage
  median : GoImage → ℚ → GoImage

/-- The external decoders/encoders used by `PreprocessImage`; an encoder
returning `none` is a non-nil encode error. -/
structure Codec where
  jpegDecode : Bytes → Option GoImage
  pngDecode : Bytes → Option GoImage
  webpDecode : Bytes → Option GoImage
  genericDecode : Bytes → Option GoImage
  jpegEncode : GoImage → Option Bytes
  pngEncode : GoImage → Option Bytes

/-- One row's summed intensity (the inner `x` loop). -/
def rowSum (img : GoImage) (y : Nat) : ℚ :=
  ((List.range img.width).map (fun x => img.pix x y)).sum

/-- `calculateProjectionScore` (preprocessing.go lines 129-160): population
variance of the per-row intensity sums.  (For a zero-height image Go
produces `0/0 = NaN`; in `ℚ` division by zero yields `0` — decoded images
always have positive dimensions.) -/
def calculateProjectionScore (img : GoImage) : ℚ :=
  let projection := (List.range img.height).map (rowSum img)
  let mean := projection.sum / (img.height : ℚ)
  ((projection.map (fun p => (p - mean) ^ 2)).sum) / (img.height : ℚ)

/-- The candidate angles of the skew search loop
`for angle := -10.0; angle <= 10.0; angle += 0.2`, idealized to exact
rationals.  (The float64 loop executes exactly 101 iterations in strictly
ascending order; accumulated rounding keeps each visited value within
8·10⁻¹⁵ of `-10 + k/5` and the last one at `10 - 5·10⁻¹⁵ ≤ 10`.) -/
def skewAngles : List ℚ := (List.range 101).map (fun k : Nat => -10 + (k : ℚ) * (1 / 5))

/-- `findBestSkewAngle` (preprocessing.go lines 106-125): Sobel the
grayscale image once, then scan the candidate angles in ascending order,
keeping the first angle whose projection score strictly exceeds the best
so far; `maxScore` starts at the sentinel `-1.0` and `bestAngle` at Go's
zero value `0`. -/
def findBestSkewAngle (G : Geometry) (grayImg : GoImage) : ℚ :=
  let edges := G.sobel grayImg
  (skewAngles.foldl
    (fun acc angle =>
      let score := calculateProjectionScore (G.rotate edges angle)
      if acc.2 < score then (angle, score) else acc)
    ((0 : ℚ), (-1 : ℚ))).1

/-- `deskew` (preprocessing.go lines 85-103): grayscale, find the best
angle, and rotate the original image only when `|angle| ≥ 0.1`. -/
def deskew (G : Geometry) (img : GoImage) : GoImage :=
  let gray := G.grayscale img
  let angle := findBestSkewAngle G gray
  if |angle| < 1 / 10 then img else G.rotate img angle

/-- `sharpen`: unsharp mask with radius 1.0 and amount 1.2. -/
def sharpen (G : Geometry) (img : GoImage) : GoImage := G.unsharpMask img 1 (6 / 5)

/-- `adjustContrast`: contrast scaling. -/
def adjustContrast (G : Geometry) (img : GoImage) (factor : ℚ) : GoImage :=
  G.contrast img factor

/-- `removeNoise`: median filter with radius 1.0. -/
def removeNoise (G : Geometry) (img : GoImage) : GoImage := G.median img 1

/-- ASCII bytes of "image/jpeg". -/
def mimeJPEG : Bytes := utf8 "image/jpeg"
/-- ASCII bytes of "image/png". -/
def mimePNG : Bytes := utf8 "image/png"
/-- ASCII bytes of "image/webp". -/
def mimeWEBP : Bytes := utf8 "image/webp"

/-- The decode `switch` of `PreprocessImage`: jpeg/png/webp by declared
MIME type, generic `image.Decode` otherwise. -/
def decodeFor (C : Codec) (mimeType imgData : Bytes) : Option GoImage :=
  if mimeType = mimeJPEG then C.jpegDecode imgData
  else if mimeType = mimePNG then C.pngDecode imgData
  else if mimeType = mimeWEBP then C.webpDecode imgData
  else C.genericDecode imgData

/-- The encode `switch` of `PreprocessImage`: JPEG for `image/jpeg`
(quality 90), PNG for everything else (including webp). -/
def encodeFor (C : Codec) (mimeType : Bytes) (img : GoImage) : Option Bytes :=
  if mimeType = mimeJPEG then C.jpegEncode img else C.pngEncode img

/-- The transformation chain applied between decode and encode:
deskew, then contrast 1.5, then sharpen, then median denoise. -/
def transformPipeline (G : Geometry) (img : GoImage) : GoImage :=
  removeNoise G (sharpen G (adjustContrast G (deskew G img) (3 / 2)))

/-- `PreprocessImage` (preprocessing.go lines 17-64).  The Go function
returns `([]byte, error)`: `some bs` models `(bs, nil)` and `none` models
`(nil, err)`.  A decode failure returns the original bytes with no error;
only an encode failure yields an error. -/
def PreprocessImage (C : Codec) (G : Geometry) (imgData mimeType : Bytes) :
    Option Bytes :=
  match decodeFor C mimeType imgData with
  | none => some imgData
  | some img => encodeFor C mimeType (transformPipeline G img)

/-! ## Extract's validation pass (src/unnamed/part_003, lines 247-283) -/

/-- The validation annotation attached to an extracted field:
`unannotated` models a field whose `Validation` string is left unset. -/
inductive Outcome where
  | unannotated
  | valid
  | invalid
  deriving DecidableEq

/-- ASCII bytes of "driver_license". -/
def docDriverLicense : Bytes := utf8 "driver_license"
/-- ASCII bytes of "individual_number_card". -/
def docIndividualNumberCard : Bytes := utf8 "individual_number_card"
/-- ASCII bytes of "card_number". -/
def keyCardNumber : Bytes := utf8 "card_number"
/-- ASCII bytes of "date". -/
def keyDate : Bytes := utf8 "date"

/-- The per-field validation dispatch inside `Extract` for a field whose
value is a string: `switch docType`; key `"card_number"` routes to the
checksum validator of the document type, a key containing `"date"` routes
to `ValidateDate`, everything else stays unannotated. -/
def fieldValidation (docType key value : Bytes) : Outcome :=
  if docType = docDriverLicense then
    if key = keyCardNumber then
      if ValidateDriverLicenseNumber value then .valid else .invalid
    else if containsSub key keyDate then
      if ValidateDate value then .valid else .invalid
    else .unannotated
  else if docType = docIndividualNumberCard then
    if key = keyCardNumber then
      if ValidateMyNumber value then .valid else .invalid
    else if containsSub key keyDate then
      if ValidateDate value then .valid else .invalid
    else .unannotated
  else .unannotated

/-! ## Spec-side definitions (stated from the claims' own wording, to be
compared with the code model) -/

/-- Spec-side weight for the My Number checksum, exactly as the claim
words it: `weight(i) = i+2` for `i < 6` and `i-4` otherwise, `i` indexing
payload digits from the rightmost. -/
def mnSpecWeight (i : Nat) : Nat := if i < 6 then i + 2 else i - 4

/-- Spec-side My Number check digit over the 11 payload digit values
(leftmost digit first): sum the digits indexed from the rightmost with
`mnSpecWeight`, take `sum mod 11`, and return `0` when the remainder is at
most 1, else `11 - remainder`. -/
def mnSpecCheckDigit (payload : List Nat) : Nat :=
  let sum := ((List.range 11).map (fun i => payload.getD (10 - i) 0 * mnSpecWeight i)).sum
  let r := sum % 11
  if r ≤ 1 then 0 else 11 - r

/-- Spec-side driver-license weighted sum over the first 11 digit values
(position 0 paired with weight 5, position 10 with weight 1). -/
def dlSpecSum (digits : List Nat) : Nat :=
  ((List.range 11).map (fun i => digits.getD i 0 * dlWeights.getD i 0)).sum

/-- A byte string of length 12 is a literal list of 12 bytes. -/
lemma destruct12 (t : Bytes) (h : t.length = 12) :
    ∃ a0 a1 a2 a3 a4 a5 a6 a7 a8 a9 a10 a11,
      t = [a0, a1, a2, a3, a4, a5, a6, a7, a8, a9, a10, a11] := by
  obtain ⟨a0, t, rfl⟩ := List.exists_of_length_succ t (show t.length = 11 + 1 by simp_all)
  simp only [List.length_cons] at h
  obtain ⟨a1, t, rfl⟩ := List.exists_of_length_succ t (show t.length = 10 + 1 by simp_all)
  simp only [List.length_cons] at h
  obtain ⟨a2, t, rfl⟩ := List.exists_of_length_succ t (show t.length = 9 + 1 by simp_all)
  simp only [List.length_cons] at h
  obtain ⟨a3, t, rfl⟩ := List.exists_of_length_succ t (show t.length = 8 + 1 by simp_all)
  simp only [List.length_cons] at h
  obtain ⟨a4, t, rfl⟩ := List.exists_of_length_succ t (show t.length = 7 + 1 by simp_all)
  simp only [List.length_cons] at h
  obtain ⟨a5, t, rfl⟩ := List.exists_of_length_succ t (show t.length = 6 + 1 by simp_all)
  simp only [List.length_cons] at h
  obtain ⟨a6, t, rfl⟩ := List.exists_of_length_succ t (show t.length = 5 + 1 by simp_all)
  simp only [List.length_cons] at h
  obtain ⟨a7, t, rfl⟩ := List.exists_of_length_succ t (show t.length = 4 + 1 by simp_all)
  simp only [List.length_cons] at h
  obtain ⟨a8, t, rfl⟩ := List.exists_of_length_succ t (show t.length = 3 + 1 by simp_all)
  simp only [List.length_cons] at h
  obtain ⟨a9, t, rfl⟩ := List.exists_of_length_succ t (show t.length = 2 + 1 by simp_all)
  simp only [List.length_cons] at h
  obtain ⟨a10, t, rfl⟩ := List.exists_of_length_succ t (show t.length = 1 + 1 by simp_all)
  simp only [List.length_cons] at h
  obtain ⟨a11, t, rfl⟩ := List.exists_of_length_succ t (show t.length = 0 + 1 by simp_all)
  simp only [List.length_cons] at h
  obtain rfl : t = [] := List.eq_nil_of_length_eq_zero (by omega)
  exact ⟨a0, a1, a2, a3, a4, a5, a6, a7, a8, a9, a10, a11, rfl⟩

/-! ## C2: driver-license checksum -/

/-- C2: for every input whose form after stripping spaces/第/号 is exactly
12 ASCII digits, `ValidateDriverLicenseNumber` returns true iff the 12th
digit equals `(11 − (sum mod 11)) mod 10` for the weighted sum of the
first 11 digits with weights [5,4,3,2,7,6,5,4,3,2,1]. -/
theorem validateDriverLicense_checksum (s : Bytes)
    (h12 : (stripDL s).length = 12)
    (hdig : (stripDL s).all isDigitB = true) :
    ValidateDriverLicenseNumber s = true ↔
      digitVal ((stripDL s).getD 11 0) =
        (11 - dlSpecSum (((stripDL s).take 11).map digitVal) % 11) % 10 := by
  obtain ⟨a0, a1, a2, a3, a4, a5, a6, a7, a8, a9, a10, a11, ht⟩ :=
    destruct12 _ h12
  rw [ht] at hdig ⊢
  simp only [List.all_cons, List.all_nil, Bool.and_eq_true] at hdig
  obtain ⟨d0, d1, d2, d3, d4, d5, d6, d7, d8, d9, d10, d11, -⟩ := hdig
  simp only [isDigitB, Bool.and_eq_true, decide_eq_true_eq]
    at d0 d1 d2 d3 d4 d5 d6 d7 d8 d9 d10 d11
  simp only [ValidateDriverLicenseNumber, ht]
  simp [weightedSum, dlWeights, dlSpecSum, isDigitB, digitVal,
    List.range_succ, d11.1, d11.2]
  omega

/-! ## C1: My Number checksum -/

/-- Nat mirror of the `mnSumAux` digit-extraction loop, used to reason
about it on the non-negative values produced by `goAtoi` on digit
strings. -/
def natMnSum (v i : Nat) : Nat → Nat
  | 0 => 0
  | fuel + 1 => v % 10 * mnSpecWeight i + natMnSum (v / 10) (i + 1) fuel

/-- On a natural value, the Go digit-extraction loop computes its Nat
mirror. -/
lemma mnSumAux_ofNat (fuel : Nat) :
    ∀ v i : Nat, mnSumAux (v : Int) i fuel = (natMnSum v i fuel : Int) := by
  induction fuel with
  | zero => intro v i; rfl
  | succ f ih =>
    intro v i
    have h1 : Int.tmod (v : Int) 10 = ((v % 10 : Nat) : Int) := by
      exact_mod_cast (Int.ofNat_tmod v 10).symm
    have h2 : Int.tdiv (v : Int) 10 = ((v / 10 : Nat) : Int) := by
      exact_mod_cast (Int.ofNat_tdiv v 10).symm
    have h3 : mnWeight i = ((mnSpecWeight i : Nat) : Int) := by
      unfold mnWeight mnSpecWeight
      split
      · push_cast
        ring
      · next h =>
        rw [Int.ofNat_sub (by omega)]
        push_cast
        ring
    simp only [mnSumAux, natMnSum, h1, h2, h3, ih]
    push_cast
    ring

/-- C1: for every input whose form after stripping hyphens is exactly 12
ASCII digits, `ValidateMyNumber` returns true iff the 12th digit equals
the check digit computed from the first 11 digits by the right-to-left
weighted-sum rule (`weight(i) = i+2` for `i < 6`, else `i-4`;
check = 0 when `sum mod 11 ≤ 1`, else `11 - sum mod 11`). -/
theorem validateMyNumber_checksum (s : Bytes)
    (h12 : (stripMN s).length = 12)
    (hdig : (stripMN s).all isDigitB = true) :
    ValidateMyNumber s = true ↔
      digitVal ((stripMN s).getD 11 0) =
        mnSpecCheckDigit (((stripMN s).take 11).map digitVal) := by
  obtain ⟨a0, a1, a2, a3, a4, a5, a6, a7, a8, a9, a10, a11, ht⟩ :=
    destruct12 _ h12
  rw [ht] at hdig ⊢
  simp only [List.all_cons, List.all_nil, Bool.and_eq_true] at hdig
  obtain ⟨d0, d1, d2, d3, d4, d5, d6, d7, d8, d9, d10, d11, -⟩ := hdig
  simp only [isDigitB, Bool.and_eq_true, decide_eq_true_eq]
    at d0 d1 d2 d3 d4 d5 d6 d7 d8 d9 d10 d11
  have hnotsign : ¬(a0 = 0x2B ∨ a0 = 0x2D) := by omega
  have hdigits11 : List.all [a0, a1, a2, a3, a4, a5, a6, a7, a8, a9, a10] isDigitB = true := by
    simp [isDigitB]
    omega
  have hbound : digitsVal [a0, a1, a2, a3, a4, a5, a6, a7, a8, a9, a10] < 2 ^ 63 := by
    simp [digitsVal, digitVal]
    omega
  have hv : goAtoi [a0, a1, a2, a3, a4, a5, a6, a7, a8, a9, a10] =
      some ((digitsVal [a0, a1, a2, a3, a4, a5, a6, a7, a8, a9, a10] : Nat) : Int) := by
    simp only [goAtoi, if_neg hnotsign]
    rw [if_pos ⟨by simp, hdigits11⟩, if_neg (show ¬a0 = 0x2D by omega), if_pos hbound]
  have hd11 : isDigitB a11 = true := by
    simp [isDigitB]
    omega
  simp only [ValidateMyNumber, ht, List.length_cons, List.length_nil,
    List.take_succ_cons, List.take_zero, hv, hd11, if_true,
    List.getD_cons_succ, List.getD_cons_zero]
  rw [if_neg (show ¬((12 : Nat) ≠ 12) by omega)]
  rw [mnSumAux_ofNat]
  have hmodcast : Int.tmod ((natMnSum (digitsVal [a0, a1, a2, a3, a4, a5, a6, a7, a8, a9, a10]) 0 11 : Nat) : Int) 11 =
      ((natMnSum (digitsVal [a0, a1, a2, a3, a4, a5, a6, a7, a8, a9, a10]) 0 11 % 11 : Nat) : Int) := by
    exact_mod_cast (Int.ofNat_tmod _ 11).symm
  rw [hmodcast]
  simp only [decide_eq_true_eq, digitVal]
  have hS : natMnSum (digitsVal [a0, a1, a2, a3, a4, a5, a6, a7, a8, a9, a10]) 0 11 =
      (a10 - 48) * 2 + (a9 - 48) * 3 + (a8 - 48) * 4 + (a7 - 48) * 5 + (a6 - 48) * 6 +
      (a5 - 48) * 7 + (a4 - 48) * 2 + (a3 - 48) * 3 + (a2 - 48) * 4 + (a1 - 48) * 5 +
      (a0 - 48) * 6 := by
    simp [natMnSum, mnSpecWeight, digitsVal, digitVal]
    omega
  simp only [mnSpecCheckDigit, mnSpecWeight, List.map_cons, List.map_nil, digitVal,
    List.range_succ, List.range_zero, List.map_append, List.sum_append, List.sum_cons,
    List.sum_nil, List.getD_cons_succ, List.getD_cons_zero]
  norm_num
  rw [← hS]
  split
  · split
    · constructor <;> intro h <;> omega
    · constructor <;> intro h <;> omega
  · split
    · constructor <;> intro h <;> omega
    · constructor <;> intro h <;> omega

/-! ## C4: rejection of malformed validator inputs -/

/-- Bytes of the output of `replaceAllAux` come from the input or the
replacement string. -/
lemma replaceAllAux_mem (old new : Bytes) :
    ∀ (fuel : Nat) (s : Bytes) (b : Nat),
      b ∈ replaceAllAux old new fuel s → b ∈ s ∨ b ∈ new := by
  intro fuel
  induction fuel with
  | zero =>
    intro s b hb
    cases s with
    | nil => simp [replaceAllAux] at hb
    | cons a t => exact Or.inl (by simpa [replaceAllAux] using hb)
  | succ f ih =>
    intro s b hb
    cases s with
    | nil => simp [replaceAllAux] at hb
    | cons a t =>
      simp only [replaceAllAux] at hb
      split at hb
      · rcases List.mem_append.mp hb with h | h
        · exact Or.inr h
        · rcases ih _ _ h with h2 | h2
          · exact Or.inl (List.mem_of_mem_drop h2)
          · exact Or.inr h2
      · rcases List.mem_cons.mp hb with rfl | h
        · exact Or.inl (List.mem_cons_self _ _)
        · rcases ih _ _ h with h2 | h2
          · exact Or.inl (List.mem_cons_of_mem _ h2)
          · exact Or.inr h2

/-- Stripping hyphens really removes every hyphen byte. -/
lemma stripMN_no_dash (s : Bytes) : 0x2D ∉ stripMN s := by
  have main : ∀ (fuel : Nat) (t : Bytes), t.length ≤ fuel →
      (0x2D : Nat) ∉ replaceAllAux [0x2D] [] fuel t := by
    intro fuel
    induction fuel with
    | zero =>
      intro t hlen
      obtain rfl : t = [] := List.eq_nil_of_length_eq_zero (by omega)
      simp [replaceAllAux]
    | succ f ih =>
      intro t hlen
      cases t with
      | nil => simp [replaceAllAux]
      | cons a u =>
        simp only [replaceAllAux]
        split
        · next hpre =>
          have ha : a = 0x2D := by
            have h2 := hpre.2
            simp [List.isPrefixOf] at h2
            omega
          subst ha
          simpa using ih u (by simp at hlen; omega)
        · next hpre =>
          have ha : a ≠ 0x2D := by
            intro h45
            subst h45
            exact hpre ⟨by simp, by simp [List.isPrefixOf]⟩
          intro hmem
          rcases List.mem_cons.mp hmem with rfl | h
          · exact ha rfl
          · exact ih u (by simp at hlen; omega) h
  exact main s.length s le_rfl

/-- C4 counterexample: the stripped input "+12345678903" has byte length
12 and contains the non-digit `+`, yet `ValidateMyNumber` accepts it
(`strconv.Atoi` tolerates a leading sign), contradicting the claim that
any non-digit character forces a false result. -/
theorem c4_counterexample :
    stripMN (utf8 "+12345678903") = utf8 "+12345678903" ∧
    (stripMN (utf8 "+12345678903")).length = 12 ∧
    (0x2B ∈ stripMN (utf8 "+12345678903") ∧ isDigitB 0x2B = false) ∧
    ValidateMyNumber (utf8 "+12345678903") = true := by
  refine ⟨by decide, by decide, ⟨by decide, by decide⟩, by decide⟩

/-- C4 (amended): both validators return false whenever the stripped
input's byte length differs from 12; with length 12,
`ValidateDriverLicenseNumber` returns false whenever any byte is not an
ASCII digit, and `ValidateMyNumber` returns false whenever any byte is
not an ASCII digit, except that a leading `+` sign is tolerated by
`strconv.Atoi` (the stripped string can never contain `-`).  Totality
(never panicking) is inherent in the embedding. -/
theorem validators_reject_malformed :
    (∀ s : Bytes, (stripDL s).length ≠ 12 → ValidateDriverLicenseNumber s = false) ∧
    (∀ s : Bytes, (stripMN s).length ≠ 12 → ValidateMyNumber s = false) ∧
    (∀ s : Bytes, ∀ b ∈ stripDL s, (stripDL s).length = 12 → isDigitB b = false →
      ValidateDriverLicenseNumber s = false) ∧
    (∀ s : Bytes, ∀ b ∈ stripMN s, (stripMN s).length = 12 → isDigitB b = false →
      (stripMN s).getD 0 0 ≠ 0x2B → ValidateMyNumber s = false) := by
  refine ⟨?_, ?_, ?_, ?_⟩
  · intro s h
    simp only [ValidateDriverLicenseNumber]
    rw [if_pos h]
  · intro s h
    simp only [ValidateMyNumber]
    rw [if_pos h]
  · intro s b hb h12 hbd
    obtain ⟨a0, a1, a2, a3, a4, a5, a6, a7, a8, a9, a10, a11, ht⟩ :=
      destruct12 _ h12
    rw [ht] at hb
    simp only [ValidateDriverLicenseNumber, ht, List.length_cons, List.length_nil,
      List.take_succ_cons, List.take_zero, List.getD_cons_succ, List.getD_cons_zero]
    rw [if_neg (show ¬((12 : Nat) ≠ 12) by omega)]
    by_cases hall : List.all [a0, a1, a2, a3, a4, a5, a6, a7, a8, a9, a10] isDigitB = true
    · by_cases hlast : isDigitB a11 = true
      · exfalso
        simp only [List.all_cons, List.all_nil, Bool.and_eq_true] at hall
        simp only [List.mem_cons, List.not_mem_nil, or_false] at hb
        rcases hb with rfl | rfl | rfl | rfl | rfl | rfl | rfl | rfl | rfl | rfl | rfl | rfl <;>
          simp_all
      · rw [if_pos hall, if_neg hlast]
    · rw [if_neg hall]
  · intro s b hb h12 hbd hplus
    obtain ⟨a0, a1, a2, a3, a4, a5, a6, a7, a8, a9, a10, a11, ht⟩ :=
      destruct12 _ h12
    rw [ht] at hb hplus
    have hnd : a0 ≠ 0x2D := by
      intro h45
      subst h45
      exact stripMN_no_dash s (by rw [ht]; exact List.mem_cons_self _ _)
    have hnp : a0 ≠ 0x2B := by simpa using hplus
    have hnotsign : ¬(a0 = 0x2B ∨ a0 = 0x2D) := by tauto
    by_cases hall : List.all [a0, a1, a2, a3, a4, a5, a6, a7, a8, a9, a10] isDigitB = true
    · have hb11 : isDigitB a11 = false := by
        simp only [List.all_cons, List.all_nil, Bool.and_eq_true] at hall
        simp only [List.mem_cons, List.not_mem_nil, or_false] at hb
        rcases hb with rfl | rfl | rfl | rfl | rfl | rfl | rfl | rfl | rfl | rfl | rfl | rfl <;>
          simp_all
      have hbound : digitsVal [a0, a1, a2, a3, a4, a5, a6, a7, a8, a9, a10] < 2 ^ 63 := by
        simp only [List.all_cons, List.all_nil, Bool.and_eq_true, isDigitB,
          Bool.and_eq_true, decide_eq_true_eq] at hall
        simp [digitsVal, digitVal]
        omega
      have hv : goAtoi [a0, a1, a2, a3, a4, a5, a6, a7, a8, a9, a10] =
          some ((digitsVal [a0, a1, a2, a3, a4, a5, a6, a7, a8, a9, a10] : Nat) : Int) := by
        simp only [goAtoi, if_neg hnotsign]
        rw [if_pos ⟨by simp, hall⟩, if_neg hnd, if_pos hbound]
      simp only [ValidateMyNumber, ht, List.length_cons, List.length_nil,
        List.take_succ_cons, List.take_zero, hv, List.getD_cons_succ, List.getD_cons_zero]
      rw [if_neg (show ¬((12 : Nat) ≠ 12) by omega), if_neg (by simp [hb11])]
    · have hg : goAtoi [a0, a1, a2, a3, a4, a5, a6, a7, a8, a9, a10] = none := by
        simp only [goAtoi, if_neg hnotsign]
        rw [if_neg (fun hcon => hall hcon.2)]
      simp only [ValidateMyNumber, ht, List.length_cons, List.length_nil,
        List.take_succ_cons, List.take_zero, hg]
      rw [if_neg (show ¬((12 : Nat) ≠ 12) by omega)]

/-- C4 witness: the amended theorem applied at concrete inputs — a
wrong-length input for each validator, a non-digit at the last position
for the license validator, and a non-digit (not a leading `+`) for the
My Number validator. -/
theorem validators_reject_malformed_witness :
    ValidateDriverLicenseNumber (utf8 "12345") = false ∧
    ValidateMyNumber (utf8 "12345") = false ∧
    ValidateDriverLicenseNumber (utf8 "12345678901a") = false ∧
    ValidateMyNumber (utf8 "12345678901a") = false := by
  refine ⟨?_, ?_, ?_, ?_⟩
  · exact validators_reject_malformed.1 (utf8 "12345") (by decide)
  · exact validators_reject_malformed.2.1 (utf8 "12345") (by decide)
  · exact validators_reject_malformed.2.2.1 (utf8 "12345678901a") 0x61 (by decide)
      (by decide) (by decide)
  · exact validators_reject_malformed.2.2.2 (utf8 "12345678901a") 0x61 (by decide)
      (by decide) (by decide) (by decide)

/-- C1 witness: the checksum characterization applied at the concrete
input "123456789018" (and the flipped check digit "123456789012"). -/
theorem validateMyNumber_checksum_witness :
    ValidateMyNumber (utf8 "123456789018") = true ∧
    ValidateMyNumber (utf8 "123456789012") = false := by
  constructor
  · rw [validateMyNumber_checksum (utf8 "123456789018") (by decide) (by decide)]
    decide
  · have h := validateMyNumber_checksum (utf8 "123456789012") (by decide) (by decide)
    rw [Bool.eq_false_iff, Ne, h]
    decide

/-- C2 witness: the checksum characterization applied at the concrete
input "123456789012" (and the flipped check digit "123456789013"). -/
theorem validateDriverLicense_checksum_witness :
    ValidateDriverLicenseNumber (utf8 "123456789012") = true ∧
    ValidateDriverLicenseNumber (utf8 "123456789013") = false := by
  constructor
  · rw [validateDriverLicense_checksum (utf8 "123456789012") (by decide) (by decide)]
    decide
  · have h := validateDriverLicense_checksum (utf8 "123456789013") (by decide) (by decide)
    rw [Bool.eq_false_iff, Ne, h]
    decide

/-! ## C6: preprocessing pass-through and error discipline -/

/-- C6: `PreprocessImage` is total; whenever decoding fails it returns the
original bytes with no error, and an error (`none`) can only arise from
the re-encode of the transformed image after a successful decode. -/
theorem preprocess_passthrough (C : Codec) (G : Geometry) (data mime : Bytes) :
    (decodeFor C mime data = none → PreprocessImage C G data mime = some data) ∧
    (PreprocessImage C G data mime = none →
      ∃ img, decodeFor C mime data = some img ∧
        encodeFor C mime (transformPipeline G img) = none) := by
  constructor
  · intro h
    simp [PreprocessImage, h]
  · intro h
    simp only [PreprocessImage] at h
    cases hd : decodeFor C mime data with
    | none =>
      rw [hd] at h
      simp at h
    | some img =>
      rw [hd] at h
      exact ⟨img, rfl, h⟩

/-- A geometry whose primitives are all identities, for concrete
witnesses. -/
def trivialGeometry : Geometry :=
  ⟨id, id, fun i _ => i, fun i _ => i, fun i _ _ => i, fun i _ => i⟩

/-- A 1×2 image with one bright row, for concrete witnesses. -/
def trivialImage : GoImage :=
  ⟨1, 2, fun _ y => if y = 0 then 4 else 0⟩

/-- A codec whose decoders all fail, for concrete witnesses. -/
def noneCodec : Codec :=
  ⟨fun _ => none, fun _ => none, fun _ => none, fun _ => none,
   fun _ => none, fun _ => none⟩

/-- C6 witness: undecodable bytes pass through unchanged. -/
theorem preprocess_passthrough_witness :
    PreprocessImage noneCodec trivialGeometry (utf8 "%PDF-1.4") (utf8 "application/pdf") =
      some (utf8 "%PDF-1.4") :=
  (preprocess_passthrough noneCodec trivialGeometry (utf8 "%PDF-1.4")
    (utf8 "application/pdf")).1 rfl

/-! ## C7: the skew-angle search -/

/-- The projection score assigned to a candidate angle inside
`findBestSkewAngle`: rotate the Sobel edge image and score it. -/
def skewScore (G : Geometry) (grayImg : GoImage) (a : ℚ) : ℚ :=
  calculateProjectionScore (G.rotate (G.sobel grayImg) a)

/-- The projection variance is non-negative for every image. -/
lemma calculateProjectionScore_nonneg (img : GoImage) :
    0 ≤ calculateProjectionScore img := by
  unfold calculateProjectionScore
  apply div_nonneg
  · apply List.sum_nonneg
    intro x hx
    simp only [List.mem_map] at hx
    obtain ⟨p, -, rfl⟩ := hx
    positivity
  · positivity

/-- The strict-greater-than fold of the skew search either keeps its
initial accumulator (when no score beats it) or returns the first list
element attaining the maximum score. -/
lemma foldl_argmax (f : ℚ → ℚ) :
    ∀ (l : List ℚ) (a0 s0 : ℚ),
      (l.foldl (fun acc angle =>
          let score := f angle
          if acc.2 < score then (angle, score) else acc) (a0, s0) = (a0, s0) ∧
        ∀ x ∈ l, f x ≤ s0) ∨
      (∃ k, ∃ hk : k < l.length,
        l.foldl (fun acc angle =>
          let score := f angle
          if acc.2 < score then (angle, score) else acc) (a0, s0) =
            (l.get ⟨k, hk⟩, f (l.get ⟨k, hk⟩)) ∧
        s0 < f (l.get ⟨k, hk⟩) ∧
        (∀ j, ∀ hj : j < l.length, f (l.get ⟨j, hj⟩) ≤ f (l.get ⟨k, hk⟩)) ∧
        (∀ j, ∀ hj : j < l.length, j < k →
          f (l.get ⟨j, hj⟩) < f (l.get ⟨k, hk⟩))) := by
  intro l
  induction l with
  | nil =>
    intro a0 s0
    exact Or.inl ⟨rfl, by simp⟩
  | cons x t ih =>
    intro a0 s0
    simp only [List.foldl_cons]
    by_cases hx : s0 < f x
    · rw [if_pos hx]
      rcases ih x (f x) with ⟨heq, hall⟩ | ⟨k, hk, heq, hgt, hmax, hstrict⟩
      · refine Or.inr ⟨0, by simp, ?_, ?_, ?_, ?_⟩
        · simpa using heq
        · simpa using hx
        · intro j hj
          cases j with
          | zero => simp
          | succ j' =>
            simp only [List.get_cons_succ, List.get_cons_zero]
            exact hall _ (List.get_mem t _ _)
        · intro j hj hj0
          omega
      · refine Or.inr ⟨k + 1, by simpa using hk, ?_, ?_, ?_, ?_⟩
        · simpa using heq
        · exact lt_trans hx hgt
        · intro j hj
          cases j with
          | zero =>
            simp only [List.get_cons_zero, List.get_cons_succ]
            exact le_of_lt hgt
          | succ j' =>
            simp only [List.get_cons_succ]
            exact hmax j' (by simpa using hj)
        · intro j hj hjk
          cases j with
          | zero =>
            simp only [List.get_cons_zero, List.get_cons_succ]
            exact hgt
          | succ j' =>
            simp only [List.get_cons_succ]
            exact hstrict j' (by simpa using hj) (by omega)
    · rw [if_neg hx]
      rcases ih a0 s0 with ⟨heq, hall⟩ | ⟨k, hk, heq, hgt, hmax, hstrict⟩
      · refine Or.inl ⟨heq, ?_⟩
        intro y hy
        rcases List.mem_cons.mp hy with rfl | hy'
        · exact le_of_not_lt hx
        · exact hall _ hy'
      · refine Or.inr ⟨k + 1, by simpa using hk, ?_, ?_, ?_, ?_⟩
        · simpa using heq
        · exact hgt
        · intro j hj
          cases j with
          | zero =>
            simp only [List.get_cons_zero, List.get_cons_succ]
            exact le_trans (le_of_not_lt hx) (le_of_lt hgt)
          | succ j' =>
            simp only [List.get_cons_succ]
            exact hmax j' (by simpa using hj)
        · intro j hj hjk
          cases j with
          | zero =>
            simp only [List.get_cons_zero, List.get_cons_succ]
            exact lt_of_le_of_lt (le_of_not_lt hx) hgt
          | succ j' =>
            simp only [List.get_cons_succ]
            exact hstrict j' (by simpa using hj) (by omega)

/-- The first candidate angle is -10. -/
lemma skewAngles_get_zero (h : 0 < skewAngles.length) :
    skewAngles.get ⟨0, h⟩ = -10 := by
  unfold skewAngles
  rw [List.get_map, List.get_range]
  norm_num

/-- The last candidate angle is 10. -/
lemma skewAngles_get_last (h : 100 < skewAngles.length) :
    skewAngles.get ⟨100, h⟩ = 10 := by
  unfold skewAngles
  rw [List.get_map, List.get_range]
  norm_num

/-- There are 101 candidate angles. -/
lemma skewAngles_length : skewAngles.length = 101 := by
  simp [skewAngles]

/-- The first-argmax characterization of `findBestSkewAngle`: the result
is some candidate angle whose score is maximal and which strictly beats
every earlier candidate. -/
lemma findBestSkewAngle_argmax (G : Geometry) (grayImg : GoImage) :
    ∃ k, ∃ hk : k < skewAngles.length,
      findBestSkewAngle G grayImg = skewAngles.get ⟨k, hk⟩ ∧
      (∀ j, ∀ hj : j < skewAngles.length,
        skewScore G grayImg (skewAngles.get ⟨j, hj⟩) ≤
          skewScore G grayImg (skewAngles.get ⟨k, hk⟩)) ∧
      (∀ j, ∀ hj : j < skewAngles.length, j < k →
        skewScore G grayImg (skewAngles.get ⟨j, hj⟩) <
          skewScore G grayImg (skewAngles.get ⟨k, hk⟩)) := by
  rcases foldl_argmax (fun a => skewScore G grayImg a) skewAngles 0 (-1) with
    ⟨-, hall⟩ | ⟨k, hk, heq, -, hmax, hstrict⟩
  · exfalso
    have h0 : 0 < skewAngles.length := by rw [skewAngles_length]; omega
    have h10 : (-10 : ℚ) ∈ skewAngles :=
      skewAngles_get_zero h0 ▸ List.get_mem skewAngles 0 h0
    have hle := hall _ h10
    have hnn := calculateProjectionScore_nonneg
      (G.rotate (G.sobel grayImg) (-10))
    have : (0 : ℚ) ≤ -1 := le_trans hnn hle
    norm_num at this
  · refine ⟨k, hk, ?_, hmax, hstrict⟩
    have hfold : findBestSkewAngle G grayImg =
        (skewAngles.foldl (fun acc angle =>
          let score := skewScore G grayImg angle
          if acc.2 < score then (angle, score) else acc) (0, -1)).1 := rfl
    rw [hfold, heq]

/-- When every candidate scores the same (degenerate input such as a
blank image), the leftmost angle -10 is returned. -/
lemma findBestSkewAngle_const (G : Geometry) (grayImg : GoImage)
    (hconst : ∀ a b : ℚ, skewScore G grayImg a = skewScore G grayImg b) :
    findBestSkewAngle G grayImg = -10 := by
  obtain ⟨k, hk, heq, -, hstrict⟩ := findBestSkewAngle_argmax G grayImg
  cases k with
  | zero => rw [heq, skewAngles_get_zero]
  | succ k' =>
    exfalso
    have h0 : (0 : Nat) < skewAngles.length := by rw [skewAngles_length]; omega
    have := hstrict 0 h0 (Nat.succ_pos k')
    rw [hconst (skewAngles.get ⟨0, h0⟩) (skewAngles.get ⟨k' + 1, hk⟩)] at this
    exact lt_irrefl _ this

/-- C7: `findBestSkewAngle` scans the 101 candidate angles
-10.0, -9.8, …, 10.0 in strictly ascending order and returns the first
(hence smallest) candidate whose projection score equals the maximum over
all candidates (the running best is updated only on strict
greater-than); when every candidate scores the same (degenerate input
such as a blank image, where the sentinel -1 is beaten already by the
first candidate), the leftmost angle -10 is returned. -/
theorem findBestSkewAngle_spec (G : Geometry) (grayImg : GoImage) :
    (∃ k, ∃ hk : k < skewAngles.length,
      findBestSkewAngle G grayImg = skewAngles.get ⟨k, hk⟩ ∧
      (∀ j, ∀ hj : j < skewAngles.length,
        skewScore G grayImg (skewAngles.get ⟨j, hj⟩) ≤
          skewScore G grayImg (skewAngles.get ⟨k, hk⟩)) ∧
      (∀ j, ∀ hj : j < skewAngles.length, j < k →
        skewScore G grayImg (skewAngles.get ⟨j, hj⟩) <
          skewScore G grayImg (skewAngles.get ⟨k, hk⟩))) ∧
    ((∀ a b : ℚ, skewScore G grayImg a = skewScore G grayImg b) →
      findBestSkewAngle G grayImg = -10) ∧
    skewAngles.length = 101 ∧
    (∀ h0 : 0 < skewAngles.length, skewAngles.get ⟨0, h0⟩ = -10) ∧
    (∀ h100 : 100 < skewAngles.length, skewAngles.get ⟨100, h100⟩ = 10) ∧
    List.Sorted (· < ·) skewAngles := by
  refine ⟨findBestSkewAngle_argmax G grayImg, findBestSkewAngle_const G grayImg,
    skewAngles_length, skewAngles_get_zero, skewAngles_get_last, ?_⟩
  have hpair : (List.range 101).Pairwise (· < ·) := List.pairwise_lt_range 101
  unfold skewAngles
  refine List.Pairwise.map _ ?_ hpair
  intro a b hab
  have : (a : ℚ) < (b : ℚ) := by exact_mod_cast hab
  linarith

/-- C7 witness: for the identity geometry all candidate scores coincide,
so the search returns the leftmost angle -10. -/
theorem findBestSkewAngle_spec_witness :
    findBestSkewAngle trivialGeometry trivialImage = -10 :=
  (findBestSkewAngle_spec trivialGeometry trivialImage).2.1 (fun _ _ => rfl)

/-! ## C8: the deskew rotation threshold -/

/-- C8: `deskew` returns the input image untouched when the best angle is
below 0.1 in absolute value, and otherwise rotates the original image
(not the edge image) by the best angle. -/
theorem deskew_threshold (G : Geometry) (img : GoImage) :
    (|findBestSkewAngle G (G.grayscale img)| < 1 / 10 → deskew G img = img) ∧
    (1 / 10 ≤ |findBestSkewAngle G (G.grayscale img)| →
      deskew G img = G.rotate img (findBestSkewAngle G (G.grayscale img))) := by
  constructor
  · intro h
    simp only [deskew]
    rw [if_pos h]
  · intro h
    simp only [deskew]
    rw [if_neg (not_lt.mpr h)]

/-- C8 witness: with the identity geometry the best angle is -10, whose
absolute value exceeds the 0.1 threshold, so the rotation branch is
taken. -/
theorem deskew_threshold_witness :
    deskew trivialGeometry trivialImage =
      trivialGeometry.rotate trivialImage
        (findBestSkewAngle trivialGeometry (trivialGeometry.grayscale trivialImage)) := by
  refine (deskew_threshold trivialGeometry trivialImage).2 ?_
  have hang : findBestSkewAngle trivialGeometry
      (trivialGeometry.grayscale trivialImage) = -10 :=
    findBestSkewAngle_const trivialGeometry _ (fun _ _ => rfl)
  rw [hang]
  norm_num

/-! ## C9: Extract's validation routing -/

/-- C9: in the validation pass of `Extract`, for the two recognized
document types a string field named exactly "card_number" is annotated by
the matching checksum validator, a field whose key contains "date" is
annotated by `ValidateDate`, and every other field is left unannotated. -/
theorem extract_validation_routing (key value : Bytes) :
    (fieldValidation docDriverLicense keyCardNumber value =
      (if ValidateDriverLicenseNumber value then .valid else .invalid)) ∧
    (fieldValidation docIndividualNumberCard keyCardNumber value =
      (if ValidateMyNumber value then .valid else .invalid)) ∧
    (key ≠ keyCardNumber → containsSub key keyDate = true →
      fieldValidation docDriverLicense key value =
        (if ValidateDate value then .valid else .invalid) ∧
      fieldValidation docIndividualNumberCard key value =
        (if ValidateDate value then .valid else .invalid)) ∧
    (key ≠ keyCardNumber → containsSub key keyDate = false →
      fieldValidation docDriverLicense key value = .unannotated ∧
      fieldValidation docIndividualNumberCard key value = .unannotated) := by
  have hne : docIndividualNumberCard ≠ docDriverLicense := by decide
  refine ⟨?_, ?_, ?_, ?_⟩
  · simp [fieldValidation]
  · simp [fieldValidation, hne]
  · intro hk hd
    constructor
    · simp [fieldValidation, hk, hd]
    · simp [fieldValidation, hne, hk, hd]
  · intro hk hd
    constructor
    · simp [fieldValidation, hk, hd]
    · simp [fieldValidation, hne, hk, hd]

/-- C9 witness: the routing theorem applied at the concrete keys
"card_number", "expiry_date" and "name". -/
theorem extract_validation_routing_witness :
    fieldValidation docDriverLicense (utf8 "expiry_date") (utf8 "令和8年11月8日") =
      Outcome.valid ∧
    fieldValidation docIndividualNumberCard (utf8 "name") (utf8 "山田太郎") =
      Outcome.unannotated := by
  constructor
  · have h := ((extract_validation_routing (utf8 "expiry_date")
      (utf8 "令和8年11月8日")).2.2.1 (by decide) (by decide)).1
    rw [h]
    rw [if_pos (by decide)]
  · exact ((extract_validation_routing (utf8 "name") (utf8 "山田太郎")).2.2.2
      (by decide) (by decide)).2

/-! ## Infrastructure for the date-validation claims -/

/-- A list is a prefix of itself followed by anything. -/
lemma isPrefixOf_append_self (l r : Bytes) : l.isPrefixOf (l ++ r) = true := by
  induction l with
  | nil => simp [List.isPrefixOf]
  | cons a t ih => simpa [List.isPrefixOf] using ih

/-- `replaceAll` steps over a byte where the pattern does not match. -/
lemma replaceAll_cons_no_match (a : Nat) (t old new : Bytes)
    (h : old.isPrefixOf (a :: t) = false) :
    replaceAll (a :: t) old new = a :: replaceAll t old new := by
  simp only [replaceAll, List.length_cons, replaceAllAux]
  rw [if_neg]
  rintro ⟨-, hpre⟩
  rw [h] at hpre
  exact Bool.false_ne_true hpre

/-- `replaceAll` marches over a prefix in which the pattern never
matches. -/
lemma replaceAll_append_no_match (pre post old new : Bytes)
    (h : ∀ i, i < pre.length → old.isPrefixOf ((pre ++ post).drop i) = false) :
    replaceAll (pre ++ post) old new = pre ++ replaceAll post old new := by
  induction pre with
  | nil => simp
  | cons a t ih =>
    have h0 := h 0 (by simp)
    simp only [List.drop_zero, List.cons_append] at h0
    have hnext : ∀ i, i < t.length → old.isPrefixOf ((t ++ post).drop i) = false := by
      intro i hi
      have := h (i + 1) (by simp; omega)
      simpa using this
    rw [List.cons_append, replaceAll_cons_no_match _ _ _ _ h0, ih hnext,
      List.cons_append]

/-- `replaceFirst` steps over a byte where the pattern does not match. -/
lemma replaceFirst_cons_no_match (a : Nat) (t old new : Bytes)
    (h : old.isPrefixOf (a :: t) = false) :
    replaceFirst (a :: t) old new = a :: replaceFirst t old new := by
  simp only [replaceFirst]
  rw [if_neg]
  rintro ⟨-, hpre⟩
  rw [h] at hpre
  exact Bool.false_ne_true hpre

/-- `replaceFirst` marches over a prefix in which the pattern never
matches. -/
lemma replaceFirst_append_no_match (pre post old new : Bytes)
    (h : ∀ i, i < pre.length → old.isPrefixOf ((pre ++ post).drop i) = false) :
    replaceFirst (pre ++ post) old new = pre ++ replaceFirst post old new := by
  induction pre with
  | nil => simp
  | cons a t ih =>
    have h0 := h 0 (by simp)
    simp only [List.drop_zero, List.cons_append] at h0
    have hnext : ∀ i, i < t.length → old.isPrefixOf ((t ++ post).drop i) = false := by
      intro i hi
      have := h (i + 1) (by simp; omega)
      simpa using this
    rw [List.cons_append, replaceFirst_cons_no_match _ _ _ _ h0, ih hnext,
      List.cons_append]

/-- `replaceFirst` fires at an exact occurrence of the pattern. -/
lemma replaceFirst_head_match (old r new : Bytes) (h : old ≠ []) :
    replaceFirst (old ++ r) old new = new ++ r := by
  cases old with
  | nil => exact absurd rfl h
  | cons o ot =>
    show replaceFirst (o :: (ot ++ r)) (o :: ot) new = new ++ r
    simp only [replaceFirst]
    rw [if_pos ⟨h, by simpa using isPrefixOf_append_self (o :: ot) r⟩]
    congr 1
    show List.drop (o :: ot).length (o :: (ot ++ r)) = r
    simp only [List.length_cons, List.drop_succ_cons]
    exact List.drop_left ot r

/-- A pattern starting with a non-ASCII byte never matches inside a run
of ASCII digits. -/
lemma no_match_in_digits (o0 : Nat) (orest : Bytes) (ho : 0x80 ≤ o0)
    (ds post : Bytes) (hds : ds.all isDigitB = true) :
    ∀ i, i < ds.length → (o0 :: orest).isPrefixOf ((ds ++ post).drop i) = false := by
  induction ds with
  | nil => simp
  | cons d dt ih =>
    intro i hi
    simp only [List.all_cons, Bool.and_eq_true] at hds
    cases i with
    | zero =>
      simp only [List.drop_zero, List.cons_append, List.isPrefixOf]
      have hd : isDigitB d = true := hds.1
      simp only [isDigitB, Bool.and_eq_true, decide_eq_true_eq] at hd
      have : (o0 == d) = false := by
        simp only [beq_eq_false_iff_ne, ne_eq]
        omega
      rw [this]
      simp
    | succ i' =>
      simp only [List.cons_append, List.drop_succ_cons]
      exact ih hds.2 i' (by simpa using hi)

/-- `replaceAll` with a kanji-headed pattern marches over a digit run. -/
lemma replaceAll_digits_march (o0 : Nat) (orest : Bytes) (ho : 0x80 ≤ o0)
    (ds post new : Bytes) (hds : ds.all isDigitB = true) :
    replaceAll (ds ++ post) (o0 :: orest) new =
      ds ++ replaceAll post (o0 :: orest) new :=
  replaceAll_append_no_match _ _ _ _ (no_match_in_digits o0 orest ho ds post hds)

/-- `replaceFirst` with a kanji-headed pattern marches over a digit run. -/
lemma replaceFirst_digits_march (o0 : Nat) (orest : Bytes) (ho : 0x80 ≤ o0)
    (ds post new : Bytes) (hds : ds.all isDigitB = true) :
    replaceFirst (ds ++ post) (o0 :: orest) new =
      ds ++ replaceFirst post (o0 :: orest) new :=
  replaceFirst_append_no_match _ _ _ _ (no_match_in_digits o0 orest ho ds post hds)

/-- `takeWhile`/`dropWhile` split a digit run followed by a non-digit. -/
lemma span_digits (l : Bytes) (b : Nat) (r : Bytes)
    (hl : l.all isDigitB = true) (hb : isDigitB b = false) :
    (l ++ b :: r).takeWhile isDigitB = l ∧
    (l ++ b :: r).dropWhile isDigitB = b :: r := by
  induction l with
  | nil => simp [List.takeWhile, List.dropWhile, hb]
  | cons a t ih =>
    simp only [List.all_cons, Bool.and_eq_true] at hl
    obtain ⟨ha, ht⟩ := hl
    obtain ⟨ih1, ih2⟩ := ih ht
    constructor
    · simp [List.takeWhile, ha, ih1]
    · simp [List.dropWhile, ha, ih2]

/-- `trimLeftAux` leaves a string alone when its first rune is not a
space. -/
lemma trimLeftAux_eq_self (fuel : Nat) (s : Bytes)
    (h : ∀ r n, decodeRune s = some (r, n) → isSpaceRune r = false) :
    trimLeftAux fuel s = s := by
  cases fuel with
  | zero => rfl
  | succ f =>
    simp only [trimLeftAux]
    cases hd : decodeRune s with
    | none => rfl
    | some rn =>
      obtain ⟨r, n⟩ := rn
      have hns := h r n (by rw [hd])
      simp [hns]

/-- `trimRightAux` leaves a string alone when its last rune is not a
space. -/
lemma trimRightAux_eq_self (fuel : Nat) (s : Bytes)
    (h : ∀ r n, decodeLastRune s = some (r, n) → isSpaceRune r = false) :
    trimRightAux fuel s = s := by
  cases fuel with
  | zero => rfl
  | succ f =>
    simp only [trimRightAux]
    cases hd : decodeLastRune s with
    | none => rfl
    | some rn =>
      obtain ⟨r, n⟩ := rn
      have hns := h r n (by rw [hd])
      simp [hns]

/-! ## Spec-side calendar (from the claims' wording) -/

/-- Spec-side leap-year rule (standard Gregorian). -/
def isLeapN (y : Nat) : Bool := y % 4 = 0 && (y % 100 ≠ 0 || y % 400 = 0)

/-- Spec-side month lengths. -/
def daysInN (m y : Nat) : Nat :=
  if m = 2 ∧ isLeapN y then 29
  else [31, 28, 31, 30, 31, 30, 31, 31, 30, 31, 30, 31].getD (m - 1) 0

/-- Spec-side: (y, m, d) is an existing proleptic-Gregorian calendar date
under standard month-length and leap-year rules. -/
def gregorianDateExists (y m d : Nat) : Bool :=
  1 ≤ m && m ≤ 12 && 1 ≤ d && d ≤ daysInN m y

/-- Months have at most 31 days. -/
lemma daysInN_le (m y : Nat) : daysInN m y ≤ 31 := by
  unfold daysInN
  split
  · omega
  · by_cases hm : m ≤ 12
    · interval_cases m <;> norm_num [List.getD]
    · have hlen : ([31, 28, 31, 30, 31, 30, 31, 31, 30, 31, 30, 31] : List Nat).length ≤ m - 1 := by
        simp
        omega
      rw [List.getD_eq_default _ _ hlen]
      omega

/-- Go's leap rule on a cast natural agrees with the spec-side rule. -/
lemma isLeap_cast (y : Nat) : isLeap (y : Int) = isLeapN y := by
  unfold isLeap isLeapN
  rw [show ((y : Int) % 4) = ((y % 4 : Nat) : Int) from (Int.natCast_mod y 4).symm,
    show ((y : Int) % 100) = ((y % 100 : Nat) : Int) from (Int.natCast_mod y 100).symm,
    show ((y : Int) % 400) = ((y % 400 : Nat) : Int) from (Int.natCast_mod y 400).symm]
  simp only [ne_eq, Nat.cast_eq_zero]

/-- Go's month-length table on cast naturals agrees with the spec side. -/
lemma daysIn_cast (m y : Nat) : daysIn (m : Int) (y : Int) = (daysInN m y : Int) := by
  unfold daysIn daysInN
  have hidx : ((m : Int) - 1).toNat = m - 1 := by omega
  rw [hidx, isLeap_cast]
  by_cases h2 : m = 2 ∧ isLeapN y = true
  · rw [if_pos ⟨by exact_mod_cast h2.1, h2.2⟩, if_pos h2]
    norm_num
  · rw [if_neg (fun hc => h2 ⟨by exact_mod_cast hc.1, hc.2⟩), if_neg h2]
    by_cases hm : m ≤ 12
    · interval_cases m <;> norm_num [List.getD]
    · have hlen1 : ([31, 28, 31, 30, 31, 30, 31, 31, 30, 31, 30, 31] : List Int).length ≤ m - 1 := by
        simp
        omega
      have hlen2 : ([31, 28, 31, 30, 31, 30, 31, 31, 30, 31, 30, 31] : List Nat).length ≤ m - 1 := by
        simp
        omega
      rw [List.getD_eq_default _ _ hlen1, List.getD_eq_default _ _ hlen2]
      norm_num

/-- The `time.Parse` validation of the era path, in terms of the claim's
calendar predicate: for an era start year, success is exactly "the
Gregorian year fits in four digits and the date exists". -/
lemma timeParseISO_iff (start y m d : Nat) (hst : 1868 ≤ start) :
    timeParseISO ((start : Int) + (y : Int) - 1) (m : Int) (d : Int) = true ↔
      (start + y - 1 ≤ 9999 ∧
       gregorianDateExists (start + y - 1) m d = true) := by
  have hcast : (start : Int) + (y : Int) - 1 = ((start + y - 1 : Nat) : Int) := by
    omega
  rw [hcast]
  unfold timeParseISO dateInRange gregorianDateExists
  rw [daysIn_cast]
  simp only [Bool.and_eq_true, decide_eq_true_eq]
  constructor
  · rintro ⟨⟨⟨⟨h1, h2⟩, h3⟩, h4⟩, ⟨⟨⟨h5, h6⟩, h7⟩, h8⟩⟩
    refine ⟨by exact_mod_cast h2, ⟨⟨⟨?_, ?_⟩, ?_⟩, ?_⟩⟩ <;> omega
  · rintro ⟨h1, ⟨⟨⟨h5, h6⟩, h7⟩, h8⟩⟩
    have hd31 := daysInN_le m (start + y - 1)
    refine ⟨⟨⟨⟨?_, ?_⟩, ?_⟩, ?_⟩, ⟨⟨⟨?_, ?_⟩, ?_⟩, ?_⟩⟩ <;> omega

/-- `strconv.Atoi` on a non-empty all-digit byte string. -/
lemma goAtoi_digits (l : Bytes) (h : l ≠ []) (hd : l.all isDigitB = true) :
    goAtoi l = if digitsVal l < 2 ^ 63 then some ((digitsVal l : Nat) : Int)
               else none := by
  cases l with
  | nil => exact absurd rfl h
  | cons b rest =>
    have hb : isDigitB b = true := by
      simp only [List.all_cons, Bool.and_eq_true] at hd
      exact hd.1
    simp only [isDigitB, Bool.and_eq_true, decide_eq_true_eq] at hb
    have hnotsign : ¬(b = 0x2B ∨ b = 0x2D) := by omega
    simp only [goAtoi, if_neg hnotsign]
    rw [if_pos ⟨by simp, hd⟩, if_neg (show ¬b = 0x2D by omega)]

/-- Era-table lookup succeeds on every table entry. -/
lemma lookupEra_of_mem (e : Bytes) (st : Nat) (hmem : (e, st) ∈ eraList) :
    lookupEra e = some st := by
  simp only [eraList, List.mem_cons, List.not_mem_nil, or_false,
    Prod.mk.injEq] at hmem
  rcases hmem with ⟨rfl, rfl⟩ | ⟨rfl, rfl⟩ | ⟨rfl, rfl⟩ | ⟨rfl, rfl⟩ | ⟨rfl, rfl⟩ <;>
    decide

/-- Every era start year is at least 1868. -/
lemma era_start_ge (e : Bytes) (st : Nat) (hmem : (e, st) ∈ eraList) :
    1868 ≤ st := by
  simp only [eraList, List.mem_cons, List.not_mem_nil, or_false,
    Prod.mk.injEq] at hmem
  rcases hmem with ⟨rfl, rfl⟩ | ⟨rfl, rfl⟩ | ⟨rfl, rfl⟩ | ⟨rfl, rfl⟩ | ⟨rfl, rfl⟩ <;>
    omega

/-- `time.Parse` with either fallback layout fails on a string whose
first byte is not a digit. -/
lemma parseGoLayout_head_not_digit (f : Bool) (b : Nat) (r : Bytes)
    (hb : isDigitB b = false) :
    parseGoLayout f (b :: r) = false := by
  unfold parseGoLayout
  rw [if_neg]
  rintro ⟨-, hall⟩
  cases r with
  | nil => simp [hb] at hall
  | cons c r' =>
    simp only [List.take_succ_cons, List.all_cons, Bool.and_eq_true] at hall
    rw [hb] at hall
    exact Bool.false_ne_true hall.1

/-- Every era name is 6 bytes long. -/
lemma era_length (e : Bytes) (st : Nat) (hmem : (e, st) ∈ eraList) :
    e.length = 6 := by
  simp only [eraList, List.mem_cons, List.not_mem_nil, or_false,
    Prod.mk.injEq] at hmem
  rcases hmem with ⟨rfl, -⟩ | ⟨rfl, -⟩ | ⟨rfl, -⟩ | ⟨rfl, -⟩ | ⟨rfl, -⟩ <;> rfl

/-- The regexp's era alternation finds exactly the era that heads the
string (the five 6-byte names are pairwise non-prefixing). -/
lemma find_era (e : Bytes) (st : Nat) (hmem : (e, st) ∈ eraList) (rest : Bytes) :
    eraList.find? (fun p => p.1.isPrefixOf (e ++ rest)) = some (e, st) := by
  simp only [eraList, List.mem_cons, List.not_mem_nil, or_false,
    Prod.mk.injEq] at hmem
  rcases hmem with ⟨rfl, rfl⟩ | ⟨rfl, rfl⟩ | ⟨rfl, rfl⟩ | ⟨rfl, rfl⟩ | ⟨rfl, rfl⟩ <;>
    simp [eraList, List.find?, List.isPrefixOf, isPrefixOf_append_self]

/-- Decoding the last rune of a string ending in 日. -/
lemma decodeLastRune_nichi (pre : Bytes) :
    decodeLastRune (pre ++ nichiB) = some (0x65E5, 3) := by
  unfold decodeLastRune
  rw [show (pre ++ nichiB).reverse = 0xA5 :: 0x97 :: 0xE6 :: pre.reverse by
    simp [nichiB]]
  norm_num [runeStart, decodeRune, contB]

/-- `strings.TrimSpace` does not touch a string that starts with an era
name and ends with 日. -/
lemma trimSpace_era_nichi (e : Bytes) (st : Nat) (hmem : (e, st) ∈ eraList)
    (mid : Bytes) :
    trimSpace (e ++ (mid ++ nichiB)) = e ++ (mid ++ nichiB) := by
  have hleft : trimLeftAux (e ++ (mid ++ nichiB)).length (e ++ (mid ++ nichiB)) =
      e ++ (mid ++ nichiB) := by
    apply trimLeftAux_eq_self
    intro r n hdec
    simp only [eraList, List.mem_cons, List.not_mem_nil, or_false,
      Prod.mk.injEq] at hmem
    rcases hmem with ⟨rfl, -⟩ | ⟨rfl, -⟩ | ⟨rfl, -⟩ | ⟨rfl, -⟩ | ⟨rfl, -⟩ <;>
    · simp only [List.cons_append, List.nil_append] at hdec
      norm_num [decodeRune, contB] at hdec
      obtain ⟨rfl, -⟩ := hdec
      decide
  have hright : trimRightAux (e ++ (mid ++ nichiB)).length (e ++ (mid ++ nichiB)) =
      e ++ (mid ++ nichiB) := by
    apply trimRightAux_eq_self
    intro r n hdec
    rw [show e ++ (mid ++ nichiB) = (e ++ mid) ++ nichiB by
      simp [List.append_assoc]] at hdec
    rw [decodeLastRune_nichi] at hdec
    simp only [Option.some.injEq, Prod.mk.injEq] at hdec
    obtain ⟨rfl, -⟩ := hdec
    decide
  unfold trimSpace
  rw [hleft, hright]

/-- The anchored regexp match on a canonical era-date string yields
exactly the four groups. -/
lemma matchWarekiAt_form (e : Bytes) (st : Nat) (hmem : (e, st) ∈ eraList)
    (yds ms ds : Bytes)
    (hy : yds ≠ []) (hyd : yds.all isDigitB = true)
    (hm : ms ≠ []) (hmd : ms.all isDigitB = true)
    (hd : ds ≠ []) (hdd : ds.all isDigitB = true) :
    matchWarekiAt (e ++ (yds ++ (nenB ++ (ms ++ (tsukiB ++ (ds ++ nichiB)))))) =
      some ⟨e, yds, ms, ds⟩ := by
  have hfind := find_era e st hmem (yds ++ (nenB ++ (ms ++ (tsukiB ++ (ds ++ nichiB)))))
  have hlen := era_length e st hmem
  obtain ⟨hy1, hy2⟩ := span_digits yds 0xE5
    (0xB9 :: 0xB4 :: (ms ++ (tsukiB ++ (ds ++ nichiB)))) hyd (by decide)
  obtain ⟨hm1, hm2⟩ := span_digits ms 0xE6
    (0x9C :: 0x88 :: (ds ++ nichiB)) hmd (by decide)
  obtain ⟨hd1, hd2⟩ := span_digits ds 0xE6 (0x97 :: 0xA5 :: []) hdd (by decide)
  unfold matchWarekiAt
  rw [hfind]
  simp only [hlen, List.drop_left']
  rw [show yds ++ (nenB ++ (ms ++ (tsukiB ++ (ds ++ nichiB)))) =
      yds ++ (0xE5 :: 0xB9 :: 0xB4 :: (ms ++ (tsukiB ++ (ds ++ nichiB)))) from rfl]
  rw [show yds ++ (0xE5 :: 0xB9 :: 0xB4 :: (ms ++ (tsukiB ++ (ds ++ nichiB)))) =
      yds ++ (0xE5 :: (0xB9 :: 0xB4 :: (ms ++ (tsukiB ++ (ds ++ nichiB))))) from rfl]
  rw [hy1, hy2]
  have ha1 : List.isPrefixOf nenB
      (229 :: 185 :: 180 :: (ms ++ (tsukiB ++ (ds ++ nichiB)))) = true :=
    isPrefixOf_append_self nenB (ms ++ (tsukiB ++ (ds ++ nichiB)))
  have ha2 : List.drop (List.length nenB)
      (229 :: 185 :: 180 :: (ms ++ (tsukiB ++ (ds ++ nichiB)))) =
      ms ++ (tsukiB ++ (ds ++ nichiB)) :=
    List.drop_left nenB (ms ++ (tsukiB ++ (ds ++ nichiB)))
  have ha3 : List.takeWhile isDigitB (ms ++ (tsukiB ++ (ds ++ nichiB))) = ms := hm1
  have ha4 : List.dropWhile isDigitB (ms ++ (tsukiB ++ (ds ++ nichiB))) =
      tsukiB ++ (ds ++ nichiB) := hm2
  have ha5 : List.isPrefixOf tsukiB (tsukiB ++ (ds ++ nichiB)) = true :=
    isPrefixOf_append_self _ _
  have ha6 : List.drop (List.length tsukiB) (tsukiB ++ (ds ++ nichiB)) =
      ds ++ nichiB :=
    List.drop_left _ _
  have ha7 : List.takeWhile isDigitB (ds ++ nichiB) = ds := hd1
  have ha8 : List.dropWhile isDigitB (ds ++ nichiB) = nichiB := hd2
  have ha9 : List.isPrefixOf nichiB nichiB = true := by decide
  rw [if_pos hy]
  dsimp only
  rw [if_neg hy, ha1, ha2, ha3, ha4]
  rw [if_pos rfl, if_neg hm, ha5, ha6, ha7, ha8]
  rw [if_pos rfl, if_neg hd, ha9]
  rw [if_pos rfl]

/-- The leftmost regexp match on a canonical era-date string is the
anchored one. -/
lemma findWareki_form (e : Bytes) (st : Nat) (hmem : (e, st) ∈ eraList)
    (yds ms ds : Bytes)
    (hy : yds ≠ []) (hyd : yds.all isDigitB = true)
    (hm : ms ≠ []) (hmd : ms.all isDigitB = true)
    (hd : ds ≠ []) (hdd : ds.all isDigitB = true) :
    findWareki (e ++ (yds ++ (nenB ++ (ms ++ (tsukiB ++ (ds ++ nichiB)))))) =
      some ⟨e, yds, ms, ds⟩ := by
  have hmatch := matchWarekiAt_form e st hmem yds ms ds hy hyd hm hmd hd hdd
  have hlen := era_length e st hmem
  cases e with
  | nil => simp at hlen
  | cons a t =>
    rw [List.cons_append] at hmatch ⊢
    simp only [findWareki]
    rw [hmatch]

/-- None of the marker patterns (元年, 年, 月, 日) matches at any offset
inside an era name. -/
lemma era_no_match (e : Bytes) (st : Nat) (hmem : (e, st) ∈ eraList)
    (pat : Bytes)
    (hpat : pat ∈ [ganB ++ nenB, nenB, tsukiB, nichiB]) (X : Bytes) :
    ∀ i, i < e.length → pat.isPrefixOf ((e ++ X).drop i) = false := by
  simp only [eraList, List.mem_cons, List.not_mem_nil, or_false,
    Prod.mk.injEq] at hmem
  simp only [List.mem_cons, List.not_mem_nil, or_false] at hpat
  rcases hmem with ⟨rfl, -⟩ | ⟨rfl, -⟩ | ⟨rfl, -⟩ | ⟨rfl, -⟩ | ⟨rfl, -⟩ <;>
    rcases hpat with rfl | rfl | rfl | rfl <;>
    · intro i hi
      simp only [List.length_cons, List.length_nil] at hi
      interval_cases i <;>
        simp [List.isPrefixOf, ganB, nenB, tsukiB, nichiB]

/-- The gannen rewrite leaves a numeric-year canonical era string
unchanged (元年 occurs nowhere in it). -/
lemma replaceFirst_ganNen_digits (e : Bytes) (st : Nat)
    (hmem : (e, st) ∈ eraList) (yds ms ds : Bytes)
    (hyd : yds.all isDigitB = true) (hmd : ms.all isDigitB = true)
    (hdd : ds.all isDigitB = true) :
    replaceFirst (e ++ (yds ++ (nenB ++ (ms ++ (tsukiB ++ (ds ++ nichiB))))))
      (ganB ++ nenB) (0x31 :: nenB) =
      e ++ (yds ++ (nenB ++ (ms ++ (tsukiB ++ (ds ++ nichiB))))) := by
  rw [replaceFirst_append_no_match _ _ _ _
    (era_no_match e st hmem (ganB ++ nenB) (by simp) _)]
  rw [show (ganB ++ nenB : Bytes) =
    0xE5 :: [0x85, 0x83, 0xE5, 0xB9, 0xB4] from rfl]
  rw [replaceFirst_digits_march 0xE5 [0x85, 0x83, 0xE5, 0xB9, 0xB4]
    (by norm_num) yds _ _ hyd]
  rw [replaceFirst_append_no_match nenB _ _ _ (by
    intro i hi
    simp only [nenB, List.length_cons, List.length_nil] at hi
    interval_cases i <;> simp [List.isPrefixOf, nenB])]
  rw [replaceFirst_digits_march 0xE5 [0x85, 0x83, 0xE5, 0xB9, 0xB4]
    (by norm_num) ms _ _ hmd]
  rw [replaceFirst_append_no_match tsukiB _ _ _ (by
    intro i hi
    simp only [tsukiB, List.length_cons, List.length_nil] at hi
    interval_cases i <;> simp [List.isPrefixOf, tsukiB])]
  rw [replaceFirst_digits_march 0xE5 [0x85, 0x83, 0xE5, 0xB9, 0xB4]
    (by norm_num) ds _ _ hdd]
  rw [show replaceFirst nichiB (0xE5 :: [0x85, 0x83, 0xE5, 0xB9, 0xB4])
    (0x31 :: nenB) = nichiB from by decide]

/-- The gannen rewrite turns 元年 into 1年 in a canonical gannen era
string. -/
lemma replaceFirst_ganNen_gan (e : Bytes) (st : Nat)
    (hmem : (e, st) ∈ eraList) (rest : Bytes) :
    replaceFirst (e ++ (ganB ++ (nenB ++ rest))) (ganB ++ nenB) (0x31 :: nenB) =
      e ++ ([0x31] ++ (nenB ++ rest)) := by
  rw [replaceFirst_append_no_match _ _ _ _
    (era_no_match e st hmem (ganB ++ nenB) (by simp) _)]
  rw [show ganB ++ (nenB ++ rest) = (ganB ++ nenB) ++ rest by
    simp [List.append_assoc]]
  rw [replaceFirst_head_match _ _ _ (by simp [ganB])]
  rfl

/-- After the separator replacements, a string headed by an era name is
still headed by that era name. -/
lemma fallback_era_form (e : Bytes) (st : Nat) (hmem : (e, st) ∈ eraList)
    (mid : Bytes) :
    ∃ w, replaceAll (replaceAll (replaceAll (e ++ mid) nenB [0x2D])
        tsukiB [0x2D]) nichiB [] = e ++ w := by
  rw [replaceAll_append_no_match _ _ _ _ (era_no_match e st hmem nenB (by simp) _)]
  rw [replaceAll_append_no_match _ _ _ _ (era_no_match e st hmem tsukiB (by simp) _)]
  rw [replaceAll_append_no_match _ _ _ _ (era_no_match e st hmem nichiB (by simp) _)]
  exact ⟨_, rfl⟩

/-- The Gregorian fallback cannot accept any string headed by an era
name. -/
lemma fallback_false_era (e : Bytes) (st : Nat) (hmem : (e, st) ∈ eraList)
    (mid : Bytes) :
    (parseGoLayout false (replaceAll (replaceAll (replaceAll (e ++ mid)
        nenB [0x2D]) tsukiB [0x2D]) nichiB []) ||
     parseGoLayout true (replaceAll (replaceAll (replaceAll (e ++ mid)
        nenB [0x2D]) tsukiB [0x2D]) nichiB [])) = false := by
  obtain ⟨w, hw⟩ := fallback_era_form e st hmem mid
  rw [hw]
  simp only [eraList, List.mem_cons, List.not_mem_nil, or_false,
    Prod.mk.injEq] at hmem
  rcases hmem with ⟨rfl, -⟩ | ⟨rfl, -⟩ | ⟨rfl, -⟩ | ⟨rfl, -⟩ | ⟨rfl, -⟩ <;>
  · rw [List.cons_append]
    rw [parseGoLayout_head_not_digit false _ _ (by decide),
      parseGoLayout_head_not_digit true _ _ (by decide)]
    rfl

/-- Full characterization of `ValidateDate` on a (gannen-normalized)
canonical era-date string. -/
lemma validateDate_canonical (era : Bytes) (start : Nat)
    (hmem : (era, start) ∈ eraList)
    (yds ms ds : Bytes)
    (hy : yds ≠ []) (hyd : yds.all isDigitB = true)
    (hm : ms ≠ []) (hmd : ms.all isDigitB = true)
    (hd : ds ≠ []) (hdd : ds.all isDigitB = true)
    (w mid : Bytes) (hwmid : w = era ++ mid)
    (htrim : trimSpace w = w)
    (hrf : replaceFirst w (ganB ++ nenB) (0x31 :: nenB) =
      era ++ (yds ++ (nenB ++ (ms ++ (tsukiB ++ (ds ++ nichiB)))))) :
    ValidateDate w = true ↔
      (start + digitsVal yds - 1 ≤ 9999 ∧
       gregorianDateExists (start + digitsVal yds - 1)
         (digitsVal ms) (digitsVal ds) = true) := by
  have hfw := findWareki_form era start hmem yds ms ds hy hyd hm hmd hd hdd
  have hlook := lookupEra_of_mem era start hmem
  have hstart := era_start_ge era start hmem
  by_cases hby : digitsVal yds < 2 ^ 63
  · by_cases hbm : digitsVal ms < 2 ^ 63
    · by_cases hbd : digitsVal ds < 2 ^ 63
      · have hwt : warekiToTime w =
            (if timeParseISO ((start : Int) + ((digitsVal yds : Nat) : Int) - 1)
                ((digitsVal ms : Nat) : Int) ((digitsVal ds : Nat) : Int) = true
             then some ((start : Int) + ((digitsVal yds : Nat) : Int) - 1,
               ((digitsVal ms : Nat) : Int), ((digitsVal ds : Nat) : Int))
             else none) := by
          simp only [warekiToTime]
          rw [htrim, hrf, hfw]
          dsimp only
          rw [goAtoi_digits yds hy hyd, if_pos hby,
            goAtoi_digits ms hm hmd, if_pos hbm,
            goAtoi_digits ds hd hdd, if_pos hbd, hlook]
        have hiff := timeParseISO_iff start (digitsVal yds) (digitsVal ms)
          (digitsVal ds) hstart
        simp only [ValidateDate]
        rw [htrim, hwt]
        by_cases htp : timeParseISO ((start : Int) + ((digitsVal yds : Nat) : Int) - 1)
            ((digitsVal ms : Nat) : Int) ((digitsVal ds : Nat) : Int) = true
        · rw [if_pos htp]
          rw [hiff] at htp
          simp [htp]
        · rw [if_neg htp]
          rw [hiff] at htp
          subst hwmid
          simp only [Option.isSome_none, Bool.false_eq_true, if_false]
          rw [fallback_false_era era start hmem mid]
          constructor
          · intro h
            exact absurd h (by simp)
          · intro hc
            exact absurd hc htp
      · have hwt : warekiToTime w = none := by
          simp only [warekiToTime]
          rw [htrim, hrf, hfw]
          dsimp only
          rw [goAtoi_digits yds hy hyd, if_pos hby,
            goAtoi_digits ms hm hmd, if_pos hbm,
            goAtoi_digits ds hd hdd, if_neg hbd]
        simp only [ValidateDate]
        rw [htrim, hwt]
        subst hwmid
        simp only [Option.isSome_none, Bool.false_eq_true, if_false]
        rw [fallback_false_era era start hmem mid]
        constructor
        · intro h
          exact absurd h (by simp)
        · rintro ⟨h1, h2⟩
          simp only [gregorianDateExists, Bool.and_eq_true,
            decide_eq_true_eq] at h2
          have hdle := daysInN_le (digitsVal ms) (start + digitsVal yds - 1)
          omega
    · have hwt : warekiToTime w = none := by
        simp only [warekiToTime]
        rw [htrim, hrf, hfw]
        dsimp only
        rw [goAtoi_digits yds hy hyd, if_pos hby,
          goAtoi_digits ms hm hmd, if_neg hbm]
      simp only [ValidateDate]
      rw [htrim, hwt]
      subst hwmid
      simp only [Option.isSome_none, Bool.false_eq_true, if_false]
      rw [fallback_false_era era start hmem mid]
      constructor
      · intro h
        exact absurd h (by simp)
      · rintro ⟨h1, h2⟩
        simp only [gregorianDateExists, Bool.and_eq_true, decide_eq_true_eq] at h2
        omega
  · have hwt : warekiToTime w = none := by
      simp only [warekiToTime]
      rw [htrim, hrf, hfw]
      dsimp only
      rw [goAtoi_digits yds hy hyd, if_neg hby]
    simp only [ValidateDate]
    rw [htrim, hwt]
    subst hwmid
    simp only [Option.isSome_none, Bool.false_eq_true, if_false]
    rw [fallback_false_era era start hmem mid]
    constructor
    · intro h
      exact absurd h (by simp)
    · rintro ⟨h1, h2⟩
      omega

/-- C3 (counterexample): the exact-form era string 令和8000年1月1日 denotes
the existing Gregorian date (10018, 1, 1), yet `ValidateDate` rejects it:
the `%d-%02d-%02d` serialisation of a five-digit year cannot be re-parsed
by the fixed-width `2006-01-02` layout, so the claimed equivalence with
calendar existence fails for Gregorian years above 9999. -/
theorem c3_counterexample :
    ValidateDate (utf8 "令和8000年1月1日") = false ∧
      gregorianDateExists (2019 + 8000 - 1) 1 1 = true := by
  constructor
  · decide
  · decide

/-- C3 (amended): for every string of the exact form
`<era><y>年<m>月<d>日` with a known era (start year per the era table) and
`<y>` a digit sequence or the token 元 (valued 1), `ValidateDate` returns
true iff the Gregorian date (start + y − 1, m, d) exists *and* the
Gregorian year is at most 9999 (the layout `2006-01-02` only re-parses
four-digit years). -/
theorem validateDate_era (era : Bytes) (start : Nat)
    (hmem : (era, start) ∈ eraList)
    (ytok ms ds : Bytes) (y : Nat)
    (hy : (ytok = ganB ∧ y = 1) ∨
          (ytok ≠ [] ∧ ytok.all isDigitB = true ∧ y = digitsVal ytok))
    (hm : ms ≠ []) (hmd : ms.all isDigitB = true)
    (hd : ds ≠ []) (hdd : ds.all isDigitB = true) :
    ValidateDate (era ++ (ytok ++ (nenB ++ (ms ++ (tsukiB ++ (ds ++ nichiB)))))) = true ↔
      (start + y - 1 ≤ 9999 ∧
       gregorianDateExists (start + y - 1) (digitsVal ms) (digitsVal ds) = true) := by
  rcases hy with ⟨rfl, rfl⟩ | ⟨hy1, hyd, rfl⟩
  · have htrim : trimSpace
        (era ++ (ganB ++ (nenB ++ (ms ++ (tsukiB ++ (ds ++ nichiB)))))) =
        era ++ (ganB ++ (nenB ++ (ms ++ (tsukiB ++ (ds ++ nichiB))))) := by
      have h := trimSpace_era_nichi era start hmem
        (ganB ++ nenB ++ ms ++ tsukiB ++ ds)
      simpa [List.append_assoc] using h
    have hrf := replaceFirst_ganNen_gan era start hmem
      (ms ++ (tsukiB ++ (ds ++ nichiB)))
    have h1 : digitsVal [0x31] = 1 := by decide
    have hc := validateDate_canonical era start hmem [0x31] ms ds
      (by decide) (by decide) hm hmd hd hdd
      (era ++ (ganB ++ (nenB ++ (ms ++ (tsukiB ++ (ds ++ nichiB))))))
      (ganB ++ (nenB ++ (ms ++ (tsukiB ++ (ds ++ nichiB))))) rfl htrim hrf
    rw [h1] at hc
    exact hc
  · have htrim : trimSpace
        (era ++ (ytok ++ (nenB ++ (ms ++ (tsukiB ++ (ds ++ nichiB)))))) =
        era ++ (ytok ++ (nenB ++ (ms ++ (tsukiB ++ (ds ++ nichiB))))) := by
      have h := trimSpace_era_nichi era start hmem
        (ytok ++ nenB ++ ms ++ tsukiB ++ ds)
      simpa [List.append_assoc] using h
    have hrf := replaceFirst_ganNen_digits era start hmem ytok ms ds hyd hmd hdd
    exact validateDate_canonical era start hmem ytok ms ds hy1 hyd hm hmd hd hdd
      _ _ rfl htrim hrf

/-- Witness for `validateDate_era`: the gannen date 令和元年5月1日 (Gregorian
2019-05-01) is accepted and 令和10年2月30日 (February 30) is rejected. -/
theorem validateDate_era_witness :
    ValidateDate (utf8 "令和元年5月1日") = true ∧
      ValidateDate (utf8 "令和10年2月30日") = false := by
  constructor
  · exact (validateDate_era [0xE4, 0xBB, 0xA4, 0xE5, 0x92, 0x8C] 2019 (by decide)
      ganB [0x35] [0x31] 1 (Or.inl ⟨rfl, rfl⟩)
      (by decide) (by decide) (by decide) (by decide)).mpr (by decide)
  · rw [Bool.eq_false_iff]
    intro h
    exact absurd ((validateDate_era [0xE4, 0xBB, 0xA4, 0xE5, 0x92, 0x8C] 2019
      (by decide) [0x31, 0x30] [0x32] [0x33, 0x30] 10
      (Or.inr ⟨by decide, by decide, by decide⟩)
      (by decide) (by decide) (by decide) (by decide)).mp h) (by decide)

/-- `trimLeftAux` only removes a prefix, so its result is a suffix. -/
lemma trimLeftAux_suffix (fuel : Nat) : ∀ s : Bytes, trimLeftAux fuel s <:+ s := by
  induction fuel with
  | zero => intro s; exact List.suffix_refl s
  | succ f ih =>
    intro s
    simp only [trimLeftAux]
    split
    · split
      · exact (ih _).trans (List.drop_suffix _ _)
      · exact List.suffix_refl s
    · exact List.suffix_refl s

/-- `trimRightAux` only removes a suffix, so its result is a prefix. -/
lemma trimRightAux_prefixOf (fuel : Nat) : ∀ s : Bytes, trimRightAux fuel s <+: s := by
  induction fuel with
  | zero => intro s; exact List.prefix_refl s
  | succ f ih =>
    intro s
    simp only [trimRightAux]
    split
    · split
      · exact (ih _).trans (List.take_prefix _ _)
      · exact List.prefix_refl s
    · exact List.prefix_refl s

/-- `strings.TrimSpace` returns a contiguous substring of its input. -/
lemma trimSpace_infixOf (s : Bytes) : trimSpace s <:+: s :=
  (trimRightAux_prefixOf s.length (trimLeftAux s.length s)).isInfix.trans
    (trimLeftAux_suffix s.length s).isInfix

/-- `strings.Replace(s, old, new, 1)` is the identity when the pattern is
not a substring. -/
lemma replaceFirst_eq_self (s old new : Bytes) (h : ¬ old <:+: s) :
    replaceFirst s old new = s := by
  induction s with
  | nil => rfl
  | cons a t ih =>
    simp only [replaceFirst]
    have hcond : ¬(old ≠ [] ∧ old.isPrefixOf (a :: t) = true) := by
      rintro ⟨-, hpre⟩
      exact h (List.isPrefixOf_iff_prefix.mp hpre).isInfix
    rw [if_neg hcond, ih (fun hin => h (List.infix_cons hin))]

/-- `replaceAllAux` is the identity when the pattern is not a substring. -/
lemma replaceAllAux_eq_self (old new : Bytes) :
    ∀ (fuel : Nat) (s : Bytes), ¬ old <:+: s →
      replaceAllAux old new fuel s = s := by
  intro fuel
  induction fuel with
  | zero => intro s h; cases s <;> rfl
  | succ f ih =>
    intro s h
    cases s with
    | nil => rfl
    | cons a t =>
      simp only [replaceAllAux]
      have hcond : ¬(old ≠ [] ∧ old.isPrefixOf (a :: t) = true) := by
        rintro ⟨-, hpre⟩
        exact h (List.isPrefixOf_iff_prefix.mp hpre).isInfix
      rw [if_neg hcond, ih t (fun hin => h (List.infix_cons hin))]

/-- `strings.ReplaceAll` is the identity when the pattern is not a
substring. -/
lemma replaceAll_eq_self (s old new : Bytes) (h : ¬ old <:+: s) :
    replaceAll s old new = s :=
  replaceAllAux_eq_self old new s.length s h

/-- The wareki pattern cannot match a string with no 年 substring. -/
lemma matchWarekiAt_none_of_no_nen (s : Bytes) (h : ¬ nenB <:+: s) :
    matchWarekiAt s = none := by
  unfold matchWarekiAt
  cases hfind : eraList.find? (fun p => p.1.isPrefixOf s) with
  | none => rfl
  | some p =>
    dsimp only
    have hsuf0 : s.drop p.1.length <:+ s := List.drop_suffix _ _
    have hnen1 : ¬ nenB.isPrefixOf ((s.drop p.1.length).dropWhile isDigitB) = true := by
      intro hpre
      exact h (((List.isPrefixOf_iff_prefix.mp hpre).isInfix.trans
        (List.dropWhile_suffix isDigitB).isInfix).trans hsuf0.isInfix)
    have hnen2 : ¬ nenB.isPrefixOf ((s.drop p.1.length).drop ganB.length) = true := by
      intro hpre
      exact h (((List.isPrefixOf_iff_prefix.mp hpre).isInfix.trans
        (List.drop_suffix ganB.length _).isInfix).trans hsuf0.isInfix)
    by_cases h1 : (s.drop p.1.length).takeWhile isDigitB ≠ []
    · rw [if_pos h1]
      dsimp only
      rw [if_neg h1, if_neg hnen1]
    · rw [if_neg h1]
      by_cases h2 : ganB.isPrefixOf (s.drop p.1.length) = true
      · rw [if_pos h2]
        dsimp only
        rw [if_neg (show ¬(ganB = ([] : Bytes)) by decide), if_neg hnen2]
      · rw [if_neg h2]
        dsimp only
        rw [if_pos rfl]

/-- The wareki search finds nothing in a string with no 年 substring. -/
lemma findWareki_none_of_no_nen (s : Bytes) (h : ¬ nenB <:+: s) :
    findWareki s = none := by
  induction s with
  | nil => rfl
  | cons a t ih =>
    simp only [findWareki]
    rw [matchWarekiAt_none_of_no_nen _ h]
    exact ih (fun hin => h (List.infix_cons hin))

/-- The era parse fails on any string with no 年 substring. -/
lemma warekiToTime_none_of_no_nen (w : Bytes) (h : ¬ nenB <:+: w) :
    warekiToTime w = none := by
  have h0 : ¬ nenB <:+: trimSpace w := fun hin => h (hin.trans (trimSpace_infixOf w))
  have h1 : replaceFirst (trimSpace w) (ganB ++ nenB) (0x31 :: nenB) = trimSpace w :=
    replaceFirst_eq_self _ _ _
      (fun hin => h0 ((List.suffix_append ganB nenB).isInfix.trans hin))
  simp only [warekiToTime]
  rw [h1, findWareki_none_of_no_nen _ h0]

/-- A successful layout parse implies a `-` byte is present. -/
lemma parseGoLayout_dash (b : Bool) (s : Bytes) (h : parseGoLayout b s = true) :
    (0x2D : Nat) ∈ s := by
  simp only [parseGoLayout] at h
  split at h
  · split at h
    · rename_i r1 heq
      have h2d : (0x2D : Nat) ∈ s.drop 4 := by
        rw [heq]
        exact List.mem_cons_self _ _
      exact List.mem_of_mem_drop h2d
    · simp at h
  · simp at h

/-- C5 (counterexample): 2023年1月5 lacks the 日 marker in the non-era
kanji-marker form, yet `ValidateDate` accepts it: the fallback deletes 日
rather than requiring it, so 2023年1月5 rewrites to 2023-1-5 and parses. -/
theorem c5_counterexample : ValidateDate (utf8 "2023年1月5") = true := by decide

/-- C5 (amended): `ValidateDate` is total and returns an ordinary `false`
on the empty string, and on every string that contains no 年 marker, no 月
marker and no ASCII hyphen (on such input the era parse cannot match and
the separator rewrite cannot manufacture the `-` the layouts demand).  A
missing 日 marker alone, however, does not force `false`. -/
theorem validateDate_malformed :
    ValidateDate [] = false ∧
    ∀ s : Bytes, ¬ nenB <:+: s → ¬ tsukiB <:+: s → (0x2D : Nat) ∉ s →
      ValidateDate s = false := by
  refine ⟨by decide, ?_⟩
  intro s hnen htsuki hdash
  have hnen' : ¬ nenB <:+: trimSpace s := fun hin => hnen (hin.trans (trimSpace_infixOf s))
  have htsuki' : ¬ tsukiB <:+: trimSpace s :=
    fun hin => htsuki (hin.trans (trimSpace_infixOf s))
  have hdash' : (0x2D : Nat) ∉ trimSpace s :=
    fun hb => hdash ((trimSpace_infixOf s).subset hb)
  have hdash2 : (0x2D : Nat) ∉ replaceAll (trimSpace s) nichiB [] := by
    intro hb
    rcases replaceAllAux_mem nichiB [] _ _ _ hb with hb2 | hb2
    · exact hdash' hb2
    · simp at hb2
  simp only [ValidateDate]
  rw [warekiToTime_none_of_no_nen (trimSpace s) hnen']
  simp only [Option.isSome_none, Bool.false_eq_true, if_false]
  rw [replaceAll_eq_self _ _ _ hnen', replaceAll_eq_self _ _ _ htsuki']
  have hp1 : parseGoLayout false (replaceAll (trimSpace s) nichiB []) = false := by
    rw [Bool.eq_false_iff]
    intro hp
    exact hdash2 (parseGoLayout_dash false _ hp)
  have hp2 : parseGoLayout true (replaceAll (trimSpace s) nichiB []) = false := by
    rw [Bool.eq_false_iff]
    intro hp
    exact hdash2 (parseGoLayout_dash true _ hp)
  rw [hp1, hp2]
  rfl

/-- Witness for `validateDate_malformed`: slash-separated 2023/01/15 (no
年, no 月, no hyphen) is rejected. -/
theorem validateDate_malformed_witness :
    ValidateDate (utf8 "2023/01/15") = false :=
  validateDate_malformed.2 (utf8 "2023/01/15") (by decide) (by decide) (by decide)

/-- The wareki pattern matches at the head of a canonical era date even
with trailing bytes after 日. -/
lemma matchWarekiAt_form_post (e : Bytes) (st : Nat) (hmem : (e, st) ∈ eraList)
    (yds ms ds post : Bytes)
    (hy : yds ≠ []) (hyd : yds.all isDigitB = true)
    (hm : ms ≠ []) (hmd : ms.all isDigitB = true)
    (hd : ds ≠ []) (hdd : ds.all isDigitB = true) :
    matchWarekiAt (e ++ (yds ++ (nenB ++ (ms ++ (tsukiB ++ (ds ++ (nichiB ++ post))))))) =
      some ⟨e, yds, ms, ds⟩ := by
  have hfind := find_era e st hmem
    (yds ++ (nenB ++ (ms ++ (tsukiB ++ (ds ++ (nichiB ++ post))))))
  have hlen := era_length e st hmem
  obtain ⟨hy1, hy2⟩ := span_digits yds 0xE5
    (0xB9 :: 0xB4 :: (ms ++ (tsukiB ++ (ds ++ (nichiB ++ post))))) hyd (by decide)
  obtain ⟨hm1, hm2⟩ := span_digits ms 0xE6
    (0x9C :: 0x88 :: (ds ++ (nichiB ++ post))) hmd (by decide)
  obtain ⟨hd1, hd2⟩ := span_digits ds 0xE6 (0x97 :: 0xA5 :: post) hdd (by decide)
  unfold matchWarekiAt
  rw [hfind]
  simp only [hlen, List.drop_left']
  rw [show yds ++ (nenB ++ (ms ++ (tsukiB ++ (ds ++ (nichiB ++ post))))) =
      yds ++ (0xE5 :: (0xB9 :: 0xB4 :: (ms ++ (tsukiB ++ (ds ++ (nichiB ++ post))))))
      from rfl]
  rw [hy1, hy2]
  have ha1 : List.isPrefixOf nenB
      (229 :: 185 :: 180 :: (ms ++ (tsukiB ++ (ds ++ (nichiB ++ post))))) = true :=
    isPrefixOf_append_self nenB (ms ++ (tsukiB ++ (ds ++ (nichiB ++ post))))
  have ha2 : List.drop (List.length nenB)
      (229 :: 185 :: 180 :: (ms ++ (tsukiB ++ (ds ++ (nichiB ++ post))))) =
      ms ++ (tsukiB ++ (ds ++ (nichiB ++ post))) :=
    List.drop_left nenB (ms ++ (tsukiB ++ (ds ++ (nichiB ++ post))))
  have ha3 : List.takeWhile isDigitB (ms ++ (tsukiB ++ (ds ++ (nichiB ++ post)))) =
      ms := hm1
  have ha4 : List.dropWhile isDigitB (ms ++ (tsukiB ++ (ds ++ (nichiB ++ post)))) =
      tsukiB ++ (ds ++ (nichiB ++ post)) := hm2
  have ha5 : List.isPrefixOf tsukiB (tsukiB ++ (ds ++ (nichiB ++ post))) = true :=
    isPrefixOf_append_self _ _
  have ha6 : List.drop (List.length tsukiB) (tsukiB ++ (ds ++ (nichiB ++ post))) =
      ds ++ (nichiB ++ post) :=
    List.drop_left _ _
  have ha7 : List.takeWhile isDigitB (ds ++ (nichiB ++ post)) = ds := hd1
  have ha8 : List.dropWhile isDigitB (ds ++ (nichiB ++ post)) = nichiB ++ post := hd2
  have ha9 : List.isPrefixOf nichiB (nichiB ++ post) = true :=
    isPrefixOf_append_self _ _
  rw [if_pos hy]
  dsimp only
  rw [if_neg hy, ha1, ha2, ha3, ha4]
  rw [if_pos rfl, if_neg hm, ha5, ha6, ha7, ha8]
  rw [if_pos rfl, if_neg hd, ha9]
  rw [if_pos rfl]

/-- The wareki search succeeds on a canonical era date with trailing
bytes. -/
lemma findWareki_form_post (e : Bytes) (st : Nat) (hmem : (e, st) ∈ eraList)
    (yds ms ds post : Bytes)
    (hy : yds ≠ []) (hyd : yds.all isDigitB = true)
    (hm : ms ≠ []) (hmd : ms.all isDigitB = true)
    (hd : ds ≠ []) (hdd : ds.all isDigitB = true) :
    findWareki (e ++ (yds ++ (nenB ++ (ms ++ (tsukiB ++ (ds ++ (nichiB ++ post))))))) =
      some ⟨e, yds, ms, ds⟩ := by
  have hmatch := matchWarekiAt_form_post e st hmem yds ms ds post hy hyd hm hmd hd hdd
  have hlen := era_length e st hmem
  cases e with
  | nil => simp at hlen
  | cons a t =>
    rw [List.cons_append] at hmatch ⊢
    simp only [findWareki]
    rw [hmatch]

/-- The wareki pattern cannot match at a position whose first byte is
below every era name's lead byte. -/
lemma matchWarekiAt_low_head (b : Nat) (t : Bytes) (hb : b < 0xE4) :
    matchWarekiAt (b :: t) = none := by
  have hnone : eraList.find? (fun p => p.1.isPrefixOf (b :: t)) = none := by
    rw [List.find?_eq_none]
    intro p hp
    simp only [eraList, List.mem_cons, List.not_mem_nil, or_false] at hp
    rcases hp with rfl | rfl | rfl | rfl | rfl <;>
    · simp only [List.isPrefixOf, Bool.and_eq_true, beq_iff_eq]
      rintro ⟨h1, -⟩
      omega
  unfold matchWarekiAt
  rw [hnone]

/-- The wareki search skips over a run of low (ASCII) bytes. -/
lemma findWareki_skip_low (pre : Bytes) (hpre : ∀ b ∈ pre, b < 0xE4) :
    ∀ v : Bytes, findWareki (pre ++ v) = findWareki v := by
  induction pre with
  | nil => intro v; rfl
  | cons a t ih =>
    intro v
    rw [List.cons_append]
    simp only [findWareki]
    rw [matchWarekiAt_low_head a _ (hpre a (List.mem_cons_self a t))]
    exact ih (fun b hb => hpre b (List.mem_cons_of_mem a hb)) v

/-- A kanji-headed pattern never matches inside a run of ASCII bytes. -/
lemma no_match_in_low (o0 : Nat) (orest : Bytes) (ho : 0x80 ≤ o0)
    (pre post : Bytes) (hpre : ∀ b ∈ pre, b < 0x80) :
    ∀ i, i < pre.length → (o0 :: orest).isPrefixOf ((pre ++ post).drop i) = false := by
  induction pre with
  | nil => simp
  | cons a t ih =>
    intro i hi
    cases i with
    | zero =>
      simp only [List.drop_zero, List.cons_append, List.isPrefixOf]
      have ha : a < 0x80 := hpre a (List.mem_cons_self a t)
      have hne : (o0 == a) = false := by
        simp only [beq_eq_false_iff_ne, ne_eq]
        omega
      rw [hne]
      simp
    | succ i' =>
      simp only [List.cons_append, List.drop_succ_cons]
      exact ih (fun b hb => hpre b (List.mem_cons_of_mem a hb)) i' (by simpa using hi)

/-- Decoding a rune starting with an ASCII byte. -/
lemma decodeRune_low (b : Nat) (t : Bytes) (hb : b < 0x80) :
    decodeRune (b :: t) = some (b, 1) := by
  unfold decodeRune
  dsimp only
  rw [if_pos hb]

/-- Decoding the last rune of a string ending in an ASCII byte. -/
lemma decodeLastRune_low (xs : Bytes) (z : Nat) (hz : z < 0x80) :
    decodeLastRune (xs ++ [z]) = some (z, 1) := by
  unfold decodeLastRune
  rw [show (xs ++ [z]).reverse = z :: xs.reverse by simp]
  simp [hz]

/-- `strings.TrimSpace` fixes a string with non-space ASCII bytes at both
ends. -/
lemma trimSpace_ascii_ends (a : Nat) (midl : Bytes) (z : Nat)
    (ha : a < 0x80) (hsa : isSpaceRune a = false)
    (hz : z < 0x80) (hsz : isSpaceRune z = false) :
    trimSpace (a :: (midl ++ [z])) = a :: (midl ++ [z]) := by
  have hleft : trimLeftAux (a :: (midl ++ [z])).length (a :: (midl ++ [z])) =
      a :: (midl ++ [z]) := by
    apply trimLeftAux_eq_self
    intro r n hdec
    rw [decodeRune_low a _ ha] at hdec
    simp only [Option.some.injEq, Prod.mk.injEq] at hdec
    obtain ⟨rfl, -⟩ := hdec
    exact hsa
  have hright : trimRightAux (a :: (midl ++ [z])).length (a :: (midl ++ [z])) =
      a :: (midl ++ [z]) := by
    apply trimRightAux_eq_self
    intro r n hdec
    rw [show a :: (midl ++ [z]) = (a :: midl) ++ [z] by simp] at hdec
    rw [decodeLastRune_low (a :: midl) z hz] at hdec
    simp only [Option.some.injEq, Prod.mk.injEq] at hdec
    obtain ⟨rfl, -⟩ := hdec
    exact hsz
  unfold trimSpace
  rw [hleft, hright]

/-- The gannen rewrite leaves a numeric-year era date embedded between
ASCII runs unchanged. -/
lemma replaceFirst_ganNen_c10 (pre : Bytes) (hpre : ∀ b ∈ pre, b < 0x80)
    (e : Bytes) (st : Nat) (hmem : (e, st) ∈ eraList)
    (yds ms ds post : Bytes)
    (hyd : yds.all isDigitB = true) (hmd : ms.all isDigitB = true)
    (hdd : ds.all isDigitB = true) (hpost : ∀ b ∈ post, b < 0x80) :
    replaceFirst
      (pre ++ (e ++ (yds ++ (nenB ++ (ms ++ (tsukiB ++ (ds ++ (nichiB ++ post))))))))
      (ganB ++ nenB) (0x31 :: nenB) =
      pre ++ (e ++ (yds ++ (nenB ++ (ms ++ (tsukiB ++ (ds ++ (nichiB ++ post))))))) := by
  rw [replaceFirst_append_no_match pre _ (ganB ++ nenB) _
    (no_match_in_low 0xE5 [0x85, 0x83, 0xE5, 0xB9, 0xB4] (by norm_num) pre _ hpre)]
  rw [replaceFirst_append_no_match _ _ _ _
    (era_no_match e st hmem (ganB ++ nenB) (by simp) _)]
  rw [show (ganB ++ nenB : Bytes) =
    0xE5 :: [0x85, 0x83, 0xE5, 0xB9, 0xB4] from rfl]
  rw [replaceFirst_digits_march 0xE5 [0x85, 0x83, 0xE5, 0xB9, 0xB4]
    (by norm_num) yds _ _ hyd]
  rw [replaceFirst_append_no_match nenB _ _ _ (by
    intro i hi
    simp only [nenB, List.length_cons, List.length_nil] at hi
    interval_cases i <;> simp [List.isPrefixOf, nenB])]
  rw [replaceFirst_digits_march 0xE5 [0x85, 0x83, 0xE5, 0xB9, 0xB4]
    (by norm_num) ms _ _ hmd]
  rw [replaceFirst_append_no_match tsukiB _ _ _ (by
    intro i hi
    simp only [tsukiB, List.length_cons, List.length_nil] at hi
    interval_cases i <;> simp [List.isPrefixOf, tsukiB])]
  rw [replaceFirst_digits_march 0xE5 [0x85, 0x83, 0xE5, 0xB9, 0xB4]
    (by norm_num) ds _ _ hdd]
  rw [replaceFirst_append_no_match nichiB _ _ _ (by
    intro i hi
    simp only [nichiB, List.length_cons, List.length_nil] at hi
    interval_cases i <;> simp [List.isPrefixOf, nichiB])]
  rw [replaceFirst_eq_self post _ _ (fun hin => by
    have h5 : (0xE5 : Nat) ∈ post := hin.subset (List.mem_cons_self _ _)
    have h6 := hpost _ h5
    omega)]

/-- C10 (counterexample): the era-date search is not a clean substring
acceptor — the string 令和1年2月30日 令和1年2月3日 contains the valid
era-date substring 令和1年2月3日, but the leftmost pattern match is the
invalid 令和1年2月30日, so `ValidateDate` returns false. -/
theorem c10_counterexample :
    utf8 "令和1年2月3日" <:+: utf8 "令和1年2月30日 令和1年2月3日" ∧
    ValidateDate (utf8 "令和1年2月3日") = true ∧
    ValidateDate (utf8 "令和1年2月30日 令和1年2月3日") = false := by
  refine ⟨by decide, by decide, by decide⟩

/-- C10 (amended): the era-date check is a substring search, not a
whole-string match: a well-formed known-era numeric-year date substring
denoting an existing Gregorian date with year at most 9999 is accepted
even when surrounded by non-empty runs of non-space ASCII bytes (such
surroundings cannot divert the leftmost pattern match, the gannen rewrite,
or the whitespace trim). -/
theorem validateDate_substring (pre post : Bytes)
    (hpre : ∀ b ∈ pre, b < 0x80 ∧ isSpaceRune b = false)
    (hpost : ∀ b ∈ post, b < 0x80 ∧ isSpaceRune b = false)
    (hpre0 : pre ≠ []) (hpost0 : post ≠ [])
    (era : Bytes) (start : Nat) (hmem : (era, start) ∈ eraList)
    (yds ms ds : Bytes)
    (hy : yds ≠ []) (hyd : yds.all isDigitB = true)
    (hm : ms ≠ []) (hmd : ms.all isDigitB = true)
    (hd : ds ≠ []) (hdd : ds.all isDigitB = true)
    (hy9999 : start + digitsVal yds - 1 ≤ 9999)
    (hgreg : gregorianDateExists (start + digitsVal yds - 1)
      (digitsVal ms) (digitsVal ds) = true) :
    ValidateDate
      (pre ++ (era ++ (yds ++ (nenB ++ (ms ++ (tsukiB ++ (ds ++ (nichiB ++ post)))))))) =
      true := by
  obtain ⟨a, pre', rfl⟩ : ∃ a pre', pre = a :: pre' := by
    cases pre with
    | nil => exact absurd rfl hpre0
    | cons x xs => exact ⟨x, xs, rfl⟩
  rcases List.eq_nil_or_concat post with rfl | ⟨init, z, rfl⟩
  · exact absurd rfl hpost0
  simp only [List.concat_eq_append] at hpost hpost0 ⊢
  have ha := hpre a (List.mem_cons_self a pre')
  have hz := hpost z (by simp)
  have htrim : trimSpace ((a :: pre') ++ (era ++ (yds ++ (nenB ++ (ms ++ (tsukiB ++
      (ds ++ (nichiB ++ (init ++ [z]))))))))) =
      (a :: pre') ++ (era ++ (yds ++ (nenB ++ (ms ++ (tsukiB ++
      (ds ++ (nichiB ++ (init ++ [z])))))))) := by
    rw [show (a :: pre') ++ (era ++ (yds ++ (nenB ++ (ms ++ (tsukiB ++
        (ds ++ (nichiB ++ (init ++ [z])))))))) =
        a :: ((pre' ++ era ++ yds ++ nenB ++ ms ++ tsukiB ++ ds ++ nichiB ++ init)
          ++ [z]) by simp [List.append_assoc]]
    exact trimSpace_ascii_ends a _ z ha.1 ha.2 hz.1 hz.2
  have hrf := replaceFirst_ganNen_c10 (a :: pre') (fun b hb => (hpre b hb).1)
    era start hmem yds ms ds (init ++ [z]) hyd hmd hdd
    (fun b hb => (hpost b hb).1)
  have hfw : findWareki ((a :: pre') ++ (era ++ (yds ++ (nenB ++ (ms ++ (tsukiB ++
      (ds ++ (nichiB ++ (init ++ [z]))))))))) = some ⟨era, yds, ms, ds⟩ := by
    rw [findWareki_skip_low (a :: pre')
      (fun b hb => by have h1 := (hpre b hb).1; omega)]
    exact findWareki_form_post era start hmem yds ms ds (init ++ [z])
      hy hyd hm hmd hd hdd
  have hstart := era_start_ge era start hmem
  have hgreg' := hgreg
  simp only [gregorianDateExists, Bool.and_eq_true, decide_eq_true_eq] at hgreg'
  have hdle := daysInN_le (digitsVal ms) (start + digitsVal yds - 1)
  have hby : digitsVal yds < 2 ^ 63 := by
    have h2 : (9999 : Nat) < 2 ^ 63 := by norm_num
    omega
  have hbm : digitsVal ms < 2 ^ 63 := by
    have h2 : (12 : Nat) < 2 ^ 63 := by norm_num
    omega
  have hbd : digitsVal ds < 2 ^ 63 := by
    have h2 : (31 : Nat) < 2 ^ 63 := by norm_num
    omega
  have htp : timeParseISO ((start : Int) + ((digitsVal yds : Nat) : Int) - 1)
      ((digitsVal ms : Nat) : Int) ((digitsVal ds : Nat) : Int) = true :=
    (timeParseISO_iff start (digitsVal yds) (digitsVal ms) (digitsVal ds) hstart).mpr
      ⟨hy9999, hgreg⟩
  have hwt : warekiToTime ((a :: pre') ++ (era ++ (yds ++ (nenB ++ (ms ++ (tsukiB ++
      (ds ++ (nichiB ++ (init ++ [z]))))))))) =
      some (((start : Int) + ((digitsVal yds : Nat) : Int) - 1,
        ((digitsVal ms : Nat) : Int), ((digitsVal ds : Nat) : Int))) := by
    simp only [warekiToTime]
    rw [htrim, hrf, hfw]
    dsimp only
    rw [goAtoi_digits yds hy hyd, if_pos hby, goAtoi_digits ms hm hmd, if_pos hbm,
      goAtoi_digits ds hd hdd, if_pos hbd, lookupEra_of_mem era start hmem]
    dsimp only
    rw [if_pos htp]
  simp only [ValidateDate]
  rw [htrim, hwt]
  rfl

/-- Witness for `validateDate_substring`: x令和1年2月3日y is accepted. -/
theorem validateDate_substring_witness :
    ValidateDate (utf8 "x令和1年2月3日y") = true :=
  validateDate_substring [0x78] [0x79] (by decide) (by decide) (by decide) (by decide)
    [0xE4, 0xBB, 0xA4, 0xE5, 0x92, 0x8C] 2019 (by decide)
    [0x31] [0x32] [0x33] (by decide) (by decide) (by decide) (by decide)
    (by decide) (by decide) (by decide) (by decide)

end Kensho

/-! ## Cross-validation against the repository's test suite

Every concrete case of `validation_test.go` is reproduced by the
embedding (kernel-checked by `decide`). -/

section TestSuite
open Kensho
example : ValidateDriverLicenseNumber (utf8 "123456789012") = true := by decide
example : ValidateDriverLicenseNumber (utf8 "123456789013") = false := by decide
example : ValidateDriverLicenseNumber (utf8 "第123456789012号") = true := by decide
example : ValidateMyNumber (utf8 "123456789018") = true := by decide
example : ValidateMyNumber (utf8 "123456789012") = false := by decide
example : ValidateMyNumber (utf8 "12345678901a") = false := by decide
example : ValidateDate (utf8 "2023年1月15日") = true := by decide
example : ValidateDate (utf8 " 2024年12月1日 ") = true := by decide
example : ValidateDate (utf8 "2023-01-15") = true := by decide
example : ValidateDate (utf8 "2023年2月30日") = false := by decide
example : ValidateDate (utf8 "2023/01/15") = false := by decide
example : ValidateDate (utf8 "") = false := by decide
example : ValidateDate (utf8 "平成30年2月1日") = true := by decide
example : ValidateDate (utf8 "令和3年9月22日") = true := by decide
example : ValidateDate (utf8 "昭和50年10月8日") = true := by decide
example : ValidateDate (utf8 "令和元年5月1日") = true := by decide
example : ValidateDate (utf8 "平成2年10月8日") = true := by decide
example : ValidateDate (utf8 "令和03年09月22日") = true := by decide
example : ValidateDate (utf8 "令和08年11月08日") = true := by decide
example : ValidateDate (utf8 "平成元年1月01日") = true := by decide
example : ValidateDate (utf8 "令和10年2月30日") = false := by decide
example : ValidateDate (utf8 "平成10年13月1日") = false := by decide
example : ValidateDate (utf8 "試験10年1月1日") = false := by decide
end TestSuite
